import Mathlib

/-!
Verification of the field-usage extraction and CIM-compliance engine of
`cim_validation.py` (spl_linter).  The Python functions are shallowly
embedded as executable Lean definitions over `List Char` / `String`:

* `splitOnPipe`            models `search_query.split('|')`
* `pyTrimL`                models `str.strip()` (ASCII whitespace)
* the matcher combinators  model the backtracking behaviour of the four
  compiled regular expressions in `COMMAND_PATTERNS` (case-insensitive
  literals, greedy `\s+`/`\s*`/`\w+`, lazy `(.*?)`, greedy `(.*)`,
  `.` not matching a newline), applied by `re.findall` / `re.match`
* `parse_search_query`, `check_cim_compliance`, `get_field_aliases`,
  `suggest_alias` follow the source line by line; Python `set`s are
  modelled as duplicate-free lists in insertion order (`addSet`), which
  preserves membership and counting behaviour.
-/

set_option maxRecDepth 10000

/-- Lower-casing of one character, the model of Python `str.lower()` /
`re.IGNORECASE` on the ASCII queries the tool handles. -/
def lowC (c : Char) : Char := c.toLower

/-- Word character, the model of the regex class `\w` for ASCII text. -/
def isW (c : Char) : Bool := c.isAlphanum || c = '_'

/-- Whitespace, the model of the regex class `\s` and of `str.strip()`
for ASCII text. -/
def isSp (c : Char) : Bool :=
  c = ' ' || c = '\t' || c = '\n' || c = '\r' || c = '\x0b' || c = '\x0c'

/-- `str.strip()` on a character list: drop whitespace at both ends. -/
def pyTrimL (t : List Char) : List Char :=
  ((t.dropWhile isSp).reverse.dropWhile isSp).reverse

/-- `str.split('|')` from `parse_search_query` (line 146): unconditional
split at every pipe character, empty segments kept. -/
def splitOnPipe : List Char → List (List Char)
  | [] => [[]]
  | c :: t =>
    if c = '|' then [] :: splitOnPipe t
    else
      match splitOnPipe t with
      | h :: r => (c :: h) :: r
      | [] => [[c]]

/-- `str.split(',')`, used on the stats / lookup argument lists. -/
def splitComma : List Char → List (List Char)
  | [] => [[]]
  | c :: t =>
    if c = ',' then [] :: splitComma t
    else
      match splitComma t with
      | h :: r => (c :: h) :: r
      | [] => [[c]]

/-- Build a `String` back from a character list. -/
def strOf (l : List Char) : String := ⟨l⟩

/-- The constant table `CIM_FIELD_MAPPINGS` (lines 5-63), an insertion
ordered association list exactly as the Python dict literal. -/
def CIM_FIELD_MAPPINGS : List (String × List (String × String)) :=
  [ ( "common",
      [ ( "src_ip", "source" ), ( "dst_ip", "destination" ), ( "user", "user" ),
        ( "host", "host" ), ( "sourcetype", "sourcetype" ), ( "index", "index" ),
        ( "source", "source" ), ( "event_id", "event_id" ), ( "action", "action" ),
        ( "status", "status" ), ( "uri", "uri" ), ( "method", "method" ) ] ),
    ( "crowdstrike",
      [ ( "device_id", "device" ), ( "process_name", "process" ),
        ( "user_id", "user" ), ( "alert_id", "alert_id" ) ] ),
    ( "bluecoat",
      [ ( "url", "uri" ), ( "response_code", "status" ),
        ( "action_taken", "action" ), ( "bytes_transferred", "bytes" ) ] ),
    ( "checkpoint",
      [ ( "policy_name", "policy" ), ( "rule_number", "rule_number" ),
        ( "source_zone", "source_zone" ), ( "destination_zone", "destination_zone" ) ] ),
    ( "windows",
      [ ( "win_logon_id", "logon_id" ), ( "win_event_code", "event_code" ),
        ( "win_account_name", "account" ), ( "win_process_id", "process_id" ) ] ),
    ( "aws",
      [ ( "aws_account_id", "account_id" ), ( "aws_region", "region" ),
        ( "aws_service", "service" ), ( "aws_event_type", "event_type" ) ] ),
    ( "gcp",
      [ ( "gcp_project_id", "project_id" ), ( "gcp_region", "region" ),
        ( "gcp_service", "service" ), ( "gcp_event_type", "event_type" ) ] ) ]

/-- All `(custom_field, cim_field)` pairs of the table in iteration
order; the nested `for source ... for custom_field ...` loops of the
Python code traverse exactly this flattened sequence. -/
def cimPairsFlat : List (String × String) :=
  CIM_FIELD_MAPPINGS.flatMap (fun sm => sm.2)

/-- Model of `set.add` / `set()` insertion: append if not yet present.
Keeps first-seen order and never produces duplicates. -/
def addSet (l : List String) (x : String) : List String :=
  if x ∈ l then l else l ++ [x]

/-- `ALL_CIM_FIELDS` (lines 66-68): the set of all mapping target
values, modelled as a duplicate-free list in first-seen order. -/
def ALL_CIM_FIELDS : List String :=
  (cimPairsFlat.map Prod.snd).foldl addSet []

/-- The membership test of lines 206-209: `field` is a custom-field key
of some source mapping. -/
def isMappedKey (f : String) : Bool :=
  CIM_FIELD_MAPPINGS.any (fun sm => (sm.2.map Prod.fst).contains f)

/-- The per-query field-usage record: the three entries of the
`fields_usage` defaultdict of `parse_search_query`, each a Python set
modelled as a duplicate-free insertion-ordered list. -/
structure FieldsUsage where
  renamed : List String
  created : List String
  used : List String
deriving DecidableEq, Repr

/-- One entry of the violation list built by `check_cim_compliance`
(lines 211-215). -/
structure Violation where
  field : String
  issue : String
  suggestion : String
deriving DecidableEq, Repr

def issueText : String := "Field is not CIM-compliant."

def suggestionText : String :=
  "Map the field to a CIM-compliant field or use field aliases to conform to CIM."

def mkViolation (f : String) : Violation := ⟨f, issueText, suggestionText⟩

/-- Set union on the list model, `a ∪ b` keeping insertion order. -/
def setUnionL (a b : List String) : List String := b.foldl addSet a

/-- `all_fields` of `check_cim_compliance` (lines 196-198): union of
the three usage sets. -/
def allFieldsOf (u : FieldsUsage) : List String :=
  setUnionL (setUnionL (setUnionL [] u.renamed) u.created) u.used

/-- `get_field_aliases` inner update: `aliases[cim_field].append(custom_field)`
on a defaultdict(list), i.e. append to an existing key or install a new
key at the end. -/
def addAlias : List (String × List String) → String → String → List (String × List String)
  | [], cim, cf => [(cim, [cf])]
  | (k, v) :: rest, cim, cf =>
    if k = cim then (k, v ++ [cf]) :: rest
    else (k, v) :: addAlias rest cim cf

/-- `get_field_aliases` (lines 219-228): reverse index from canonical
field to the list of custom fields mapping to it, keys in first-seen
order. -/
def get_field_aliases : List (String × List String) :=
  cimPairsFlat.foldl (fun a kv => addAlias a kv.2 kv.1) []

/-- Python `str.lower()` on a whole string (ASCII model). -/
def lowerStr (s : String) : String := strOf (s.data.map lowC)

/-- `suggest_alias` (lines 230-239): canonical fields one of whose
custom keys matches the argument case-insensitively, in index order. -/
def suggest_alias (field : String) : List String :=
  (get_field_aliases.filter
    (fun e => (e.2.map lowerStr).contains (lowerStr field))).map Prod.fst

/-- Modelled from the spec (§4.5): "case-insensitive scan of every
source's custom-field keys; for each match, collect the associated
canonical field name; return the deduplicated list of canonical names
in first-seen order".  This is the spec-side definition used to state
the refinement for `suggest_alias`; it scans the flattened pair list
directly. -/
def suggestSpecFirstSeen (field : String) : List String :=
  (((cimPairsFlat.filter
      (fun kv => lowerStr kv.1 == lowerStr field)).map Prod.snd).foldl addSet [])

/-!
Matcher combinators.  Each combinator takes the remaining text and a
continuation and tries the alternatives of one regex piece in exactly
the preference order of the Python backtracking engine: the first
alternative whose continuation succeeds wins.
-/

/-- Case-insensitive literal (the effect of `re.IGNORECASE` on literal
pattern text): consume the literal or fail. -/
def ciLit : List Char → List Char → Option (List Char)
  | [], t => some t
  | _ :: _, [] => none
  | l :: ls, c :: t => if lowC l = lowC c then ciLit ls t else none

/-- Countdown worker for greedy `\s+`: try dropping `i` characters,
then `i-1`, ..., down to `1`. -/
def wsDown (k : List Char → Option α) (t : List Char) : Nat → Option α
  | 0 => none
  | i + 1 =>
    match k (t.drop (i + 1)) with
    | some r => some r
    | none => wsDown k t i

/-- Greedy `\s+`: longest run of whitespace first, at least one. -/
def wsPlusFirst (t : List Char) (k : List Char → Option α) : Option α :=
  wsDown k t (t.takeWhile isSp).length

/-- Countdown worker for greedy `\s*` / `\w+` style pieces that may
also consume nothing: try `i`, ..., `1`, `0` dropped characters. -/
def starDown (k : List Char → Option α) (t : List Char) : Nat → Option α
  | 0 => k t
  | i + 1 =>
    match k (t.drop (i + 1)) with
    | some r => some r
    | none => starDown k t i

/-- Greedy `\s*`: longest whitespace run first, possibly empty. -/
def wsStarFirst (t : List Char) (k : List Char → Option α) : Option α :=
  starDown k t (t.takeWhile isSp).length

/-- Countdown worker for greedy `\w+` (without capture): try the
longest word run first, at least one character. -/
def wdDown (k : List Char → Option α) (t : List Char) : Nat → Option α
  | 0 => none
  | i + 1 =>
    match k (t.drop (i + 1)) with
    | some r => some r
    | none => wdDown k t i

/-- Greedy `\w+`. -/
def wdPlusFirst (t : List Char) (k : List Char → Option α) : Option α :=
  wdDown k t (t.takeWhile isW).length

/-- Lazy `(.*?)` worker: try the shortest consumed text first, growing
one (non-newline) character at a time; `racc` holds the consumed text
reversed. -/
def lazyDotGo (k : List Char → List Char → Option α) :
    List Char → List Char → Option α
  | racc, [] =>
    match k racc.reverse [] with
    | some r => some r
    | none => none
  | racc, c :: rest' =>
    match k racc.reverse (c :: rest') with
    | some r => some r
    | none => if c = '\n' then none else lazyDotGo k (c :: racc) rest'

/-- Lazy `(.*?)`: the continuation receives the captured text and the
remaining text. -/
def lazyDotFirst (t : List Char) (k : List Char → List Char → Option α) : Option α :=
  lazyDotGo k [] t

/-- Countdown worker for greedy `(.*)`: try taking `i` characters, then
fewer, down to `0`. -/
def gdDown (k : List Char → List Char → Option α) (t : List Char) : Nat → Option α
  | 0 => k [] t
  | i + 1 =>
    match k (t.take (i + 1)) (t.drop (i + 1)) with
    | some r => some r
    | none => gdDown k t i

/-- Greedy `(.*)` (no newline): longest capture first. -/
def greedyDotFirst (t : List Char) (k : List Char → List Char → Option α) : Option α :=
  gdDown k t (t.takeWhile (fun c => c ≠ '\n')).length

/-- The tail group `($|\s|$)` of the rename pattern: succeed at end of
input or consume a single whitespace character. -/
def endOrWsM : List Char → Option (List Char)
  | [] => some []
  | c :: t => if isSp c then some t else none

def litRename : List Char := "rename".data
def litEval : List Char := "eval".data
def litAs : List Char := "as".data
def litStats : List Char := "stats".data
def litBy : List Char := "by".data
def litLookup : List Char := "lookup".data
def litOutput : List Char := "OUTPUT".data
def litNew : List Char := "NEW".data

/-- Optional `(?:NEW)?`: greedy, so try consuming `NEW` first. -/
def optNewFirst (t : List Char) (k : List Char → Option α) : Option α :=
  match ciLit litNew t with
  | some t' =>
    match k t' with
    | some r => some r
    | none => k t
  | none => k t

/-- One attempted match of `rename\s+(.*?)\s+as\s+(.*?)($|\s|$)`
(line 72) at the start of `t`; on success returns the two groups and
the text after the match. -/
def matchRenameAt (t : List Char) :
    Option ((List Char × List Char) × List Char) :=
  match ciLit litRename t with
  | none => none
  | some t1 =>
    wsPlusFirst t1 fun t2 =>
    lazyDotFirst t2 fun g1 t3 =>
    wsPlusFirst t3 fun t4 =>
    match ciLit litAs t4 with
    | none => none
    | some t5 =>
      wsPlusFirst t5 fun t6 =>
      lazyDotFirst t6 fun g2 t7 =>
      (endOrWsM t7).map fun rest => ((g1, g2), rest)

/-- One attempted match of `eval\s+(.*?)\s*=` (line 73) at the start of
`t`. -/
def matchEvalAt (t : List Char) : Option (List Char × List Char) :=
  match ciLit litEval t with
  | none => none
  | some t1 =>
    wsPlusFirst t1 fun t2 =>
    lazyDotFirst t2 fun g1 t3 =>
    wsStarFirst t3 fun t4 =>
    match t4 with
    | c :: rest => if c = '=' then some (g1, rest) else none
    | [] => none

/-- One attempted match of `stats\s+(.*?)\s+by\s+(.*)` (line 74) at the
start of `t`. -/
def matchStatsAt (t : List Char) :
    Option ((List Char × List Char) × List Char) :=
  match ciLit litStats t with
  | none => none
  | some t1 =>
    wsPlusFirst t1 fun t2 =>
    lazyDotFirst t2 fun g1 t3 =>
    wsPlusFirst t3 fun t4 =>
    match ciLit litBy t4 with
    | none => none
    | some t5 =>
      wsPlusFirst t5 fun t6 =>
      greedyDotFirst t6 fun g2 rest => some ((g1, g2), rest)

/-- One attempted match of
`lookup\s+(.*?)\s+(.*?)\s+OUTPUT(?:NEW)?\s+(.*)` (line 75) at the start
of `t`. -/
def matchLookupAt (t : List Char) :
    Option ((List Char × List Char × List Char) × List Char) :=
  match ciLit litLookup t with
  | none => none
  | some t1 =>
    wsPlusFirst t1 fun t2 =>
    lazyDotFirst t2 fun g1 t3 =>
    wsPlusFirst t3 fun t4 =>
    lazyDotFirst t4 fun g2 t5 =>
    wsPlusFirst t5 fun t6 =>
    match ciLit litOutput t6 with
    | none => none
    | some t7 =>
      optNewFirst t7 fun t8 =>
      wsPlusFirst t8 fun t9 =>
      greedyDotFirst t9 fun g3 rest => some ((g1, g2, g3), rest)

/-- One attempted match of the aggregation-alias pattern
`\s*\w+\((.*?)\)\s*as\s*(\w+)` (line 112), anchored as `re.match` is;
returns the inner field and the alias. -/
def matchAggAlias (t : List Char) : Option (List Char × List Char) :=
  wsStarFirst t fun t1 =>
  wdPlusFirst t1 fun t2 =>
  match t2 with
  | '(' :: t3 =>
    lazyDotFirst t3 fun g1 t4 =>
    match t4 with
    | ')' :: t5 =>
      wsStarFirst t5 fun t6 =>
      match ciLit litAs t6 with
      | none => none
      | some t7 =>
        wsStarFirst t7 fun t8 =>
        let n := (t8.takeWhile isW).length
        if n = 0 then none else some (g1, t8.take n)
    | _ => none
  | _ => none

/-- One attempted match of `\w+\((.*?)\)` (line 118) at the start of
`t`. -/
def matchAggInnerAt (t : List Char) : Option (List Char × List Char) :=
  wdPlusFirst t fun t2 =>
  match t2 with
  | '(' :: t3 =>
    lazyDotFirst t3 fun g t4 =>
    match t4 with
    | ')' :: rest => some (g, rest)
    | _ => none
  | _ => none

/-- `re.findall` driver with explicit fuel (one unit per scan step, so
`t.length + 1` always suffices): scan left to right, emit each match
and continue after it, otherwise advance one character. -/
def findAllFuel (m : List Char → Option (α × List Char)) :
    Nat → List Char → List α
  | 0, _ => []
  | f + 1, t =>
    match m t with
    | some (g, rest) => g :: findAllFuel m f rest
    | none =>
      match t with
      | [] => []
      | _ :: t' => findAllFuel m f t'

/-- `COMMAND_PATTERNS["rename"].findall(command)`. -/
def renameFindAll (t : List Char) : List (List Char × List Char) :=
  findAllFuel matchRenameAt (t.length + 1) t

/-- `COMMAND_PATTERNS["eval"].findall(command)`. -/
def evalFindAll (t : List Char) : List (List Char) :=
  findAllFuel matchEvalAt (t.length + 1) t

/-- `COMMAND_PATTERNS["stats"].findall(command)`. -/
def statsFindAll (t : List Char) : List (List Char × List Char) :=
  findAllFuel matchStatsAt (t.length + 1) t

/-- `COMMAND_PATTERNS["lookup"].findall(command)`. -/
def lookupFindAll (t : List Char) : List (List Char × List Char × List Char) :=
  findAllFuel matchLookupAt (t.length + 1) t

/-- `re.findall(r'\w+\((.*?)\)', part)` (line 118). -/
def aggInnerFindAll (t : List Char) : List (List Char) :=
  findAllFuel matchAggInnerAt (t.length + 1) t

/-- `extract_fields_from_rename` (lines 78-87): the list of
`(old.strip(), new.strip())` pairs of all pattern matches. -/
def extract_fields_from_rename (command : String) : List (String × String) :=
  (renameFindAll command.data).map
    (fun g => (strOf (pyTrimL g.1), strOf (pyTrimL g.2)))

/-- `extract_fields_from_eval` (lines 89-98): the stripped first groups
of all pattern matches. -/
def extract_fields_from_eval (command : String) : List String :=
  (evalFindAll command.data).map (fun g => strOf (pyTrimL g))

/-- The body of the aggregation-part loop of `extract_fields_from_stats`
(lines 110-120): alias if the alias form matches, else the first inner
field of a bare aggregation, else nothing. -/
def statsAggContribution (part : List Char) : List String :=
  match matchAggAlias (pyTrimL part) with
  | some g => [strOf (pyTrimL g.2)]
  | none =>
    match aggInnerFindAll part with
    | inner :: _ => [strOf (pyTrimL inner)]
    | [] => []

/-- `extract_fields_from_stats` (lines 100-126). -/
def extract_fields_from_stats (command : String) : List String :=
  (statsFindAll command.data).flatMap fun g =>
    ((splitComma g.1).flatMap statsAggContribution) ++
      ((splitComma g.2).map (fun p => strOf (pyTrimL p)))

/-- `extract_fields_from_lookup` (lines 128-139): stripped input fields
followed by stripped output fields, for every match. -/
def extract_fields_from_lookup (command : String) : List String :=
  (lookupFindAll command.data).flatMap fun g =>
    ((splitComma g.2.1).map (fun p => strOf (pyTrimL p))) ++
      ((splitComma g.2.2).map (fun p => strOf (pyTrimL p)))

/-- The verb list of line 174. -/
def fallbackVerbs : List String :=
  [ "search", "where", "table", "fields", "fillnull", "coalesce" ]

/-- Maximal `\w+` runs of the text followed directly by `=`; the matches
of `re.findall(r'\b(\w+)=', cmd)` (line 177).  `racc` is the current
word run, reversed. -/
def eqRunsGo (racc : List Char) : List Char → List (List Char)
  | [] => []
  | c :: t =>
    if isW c then eqRunsGo (c :: racc) t
    else if c = '=' && racc ≠ [] then racc.reverse :: eqRunsGo [] t
    else eqRunsGo [] t

def eqRuns (t : List Char) : List (List Char) := eqRunsGo [] t

/-- Maximal `\w+` runs of the text; the matches of
`re.findall(r'\b(\w+)\b', cmd)` (line 180). -/
def wordRunsGo (racc : List Char) : List Char → List (List Char)
  | [] => if racc = [] then [] else [racc.reverse]
  | c :: t =>
    if isW c then wordRunsGo (c :: racc) t
    else if racc = [] then wordRunsGo [] t
    else racc.reverse :: wordRunsGo [] t

def wordRuns (t : List Char) : List (List Char) := wordRunsGo [] t

/-- The fallback extraction of lines 177-180: prefer `\w+` runs before
`=`, otherwise every bare word run. -/
def fallbackFields (t : List Char) : List (List Char) :=
  if eqRuns t = [] then wordRuns t else eqRuns t

/-- The leading `(\w+)` verb of a stage (line 153), lower-cased; empty
when `re.match(r'(\w+)', cmd)` fails. -/
def verbOf (t : List Char) : String := strOf ((t.takeWhile isW).map lowC)

def vRename : String := "rename"
def vEval : String := "eval"
def vStats : String := "stats"
def vLookup : String := "lookup"

/-- The loop body of `parse_search_query` (lines 151-183): classify the
stage and merge its contribution into the usage record. -/
def stageStep (u : FieldsUsage) (cmd : List Char) : FieldsUsage :=
  if cmd.takeWhile isW = [] then u
  else if verbOf cmd = vRename then
    { u with renamed :=
        (extract_fields_from_rename (strOf cmd)).foldl (fun s p => addSet s p.2) u.renamed }
  else if verbOf cmd = vEval then
    { u with created := (extract_fields_from_eval (strOf cmd)).foldl addSet u.created }
  else if verbOf cmd = vStats then
    { u with used := (extract_fields_from_stats (strOf cmd)).foldl addSet u.used }
  else if verbOf cmd = vLookup then
    { u with used := (extract_fields_from_lookup (strOf cmd)).foldl addSet u.used }
  else if fallbackVerbs.contains (verbOf cmd) then
    { u with used := (fallbackFields cmd).foldl (fun s f => addSet s (strOf f)) u.used }
  else u

/-- The stage list of line 146: split at every `|`, strip, drop empty
segments. -/
def commandsOf (q : String) : List (List Char) :=
  ((splitOnPipe q.data).map pyTrimL).filter (fun c => c ≠ [])

/-- `parse_search_query` (lines 141-185). -/
def parse_search_query (q : String) : FieldsUsage :=
  (commandsOf q).foldl stageStep ⟨[], [], []⟩

/-- The compliance predicate of lines 202-209: not a canonical field
and not a custom key of any source mapping. -/
def isViolationField (f : String) : Bool :=
  !(ALL_CIM_FIELDS.contains f) && !(isMappedKey f)

/-- `check_cim_compliance` (lines 187-217).  The `search_name` argument
is accepted and, as in the source, never used. -/
def check_cim_compliance (searchName q : String) : List Violation :=
  ((allFieldsOf (parse_search_query q)).filter isViolationField).map mkViolation

/-!  Lemmas about the list model of Python sets. -/

theorem mem_addSet {l : List String} {x y : String} :
    y ∈ addSet l x ↔ y ∈ l ∨ y = x := by
  by_cases h : x ∈ l
  · simp only [addSet, if_pos h]
    constructor
    · exact Or.inl
    · rintro (h' | rfl)
      · exact h'
      · exact h
  · simp [addSet, if_neg h]

theorem nodup_addSet {l : List String} (x : String) (h : l.Nodup) :
    (addSet l x).Nodup := by
  by_cases hx : x ∈ l
  · simpa [addSet, if_pos hx] using h
  · simp [addSet, if_neg hx, List.nodup_append, h, hx]

theorem mem_foldl_addSet {l : List String} :
    ∀ {init : List String} {y : String},
      y ∈ l.foldl addSet init ↔ y ∈ init ∨ y ∈ l := by
  induction l with
  | nil => simp
  | cons a l ih =>
    intro init y
    simp only [List.foldl_cons, ih, mem_addSet, List.mem_cons]
    tauto

theorem nodup_foldl_addSet {l : List String} :
    ∀ {init : List String}, init.Nodup → (l.foldl addSet init).Nodup := by
  induction l with
  | nil => intro _ h; exact h
  | cons a l ih => intro init h; exact ih (nodup_addSet a h)

theorem mem_allFieldsOf {u : FieldsUsage} {y : String} :
    y ∈ allFieldsOf u ↔ y ∈ u.renamed ∨ y ∈ u.created ∨ y ∈ u.used := by
  simp only [allFieldsOf, setUnionL, mem_foldl_addSet, List.not_mem_nil]
  tauto

theorem nodup_allFieldsOf (u : FieldsUsage) : (allFieldsOf u).Nodup :=
  nodup_foldl_addSet (nodup_foldl_addSet (nodup_foldl_addSet List.nodup_nil))

/-- The Boolean violation predicate unfolded to propositions. -/
theorem isViolationField_iff {f : String} :
    isViolationField f = true ↔ f ∉ ALL_CIM_FIELDS ∧ isMappedKey f = false := by
  simp [isViolationField, List.contains, List.elem_iff, Bool.not_eq_true']

/-- The violation fields are exactly the filtered aggregated fields. -/
theorem check_map_field (n q : String) :
    (check_cim_compliance n q).map Violation.field =
      (allFieldsOf (parse_search_query q)).filter isViolationField := by
  unfold check_cim_compliance
  rw [List.map_map]
  exact List.map_id _

/-- C10: `check_cim_compliance` ignores its `search_name` argument: for
any two names and any query the violation lists coincide. -/
theorem check_cim_compliance_ignores_search_name :
    ∀ n₁ n₂ q : String, check_cim_compliance n₁ q = check_cim_compliance n₂ q :=
  fun _ _ _ => rfl

def qBracketSub : String := "search [a | b] | stats c"
def qBracketEmpty : String := "search [] | stats c"

/-- C1: the segmenter splits at every pipe, brackets notwithstanding: a
query whose bracketed subsearch holds a pipe yields three top-level
stages while the same query with the subsearch content removed yields
two.  This exhibits the divergence from the spec's bracket-safety
requirement. -/
theorem segmenter_splits_inside_brackets :
    (commandsOf qBracketSub).length = 3 ∧ (commandsOf qBracketEmpty).length = 2 := by
  decide

def qStatsAlias : String := "stats count(x) as y by z"

/-- C2: for `stats count(x) as y by z` the code records the alias `y`
and the by-field `z` in `used` and records nothing in `created`; the
inner field `x` is not extracted at all. -/
theorem stats_alias_in_used_not_created :
    (parse_search_query qStatsAlias).used = [ "y", "z" ] ∧
      (parse_search_query qStatsAlias).created = [] ∧
      (parse_search_query qStatsAlias).renamed = [] := by
  decide

/-- C4: a field name is reported in the violation list exactly when it
occurs in the aggregated usage record, is no canonical field and is no
custom key of any source mapping; and each such field is reported
exactly once. -/
theorem check_cim_compliance_violation_iff (n q F : String) :
    (F ∈ (check_cim_compliance n q).map Violation.field ↔
      F ∈ allFieldsOf (parse_search_query q) ∧
        F ∉ ALL_CIM_FIELDS ∧ isMappedKey F = false) ∧
    ((check_cim_compliance n q).map Violation.field).count F =
      (if F ∈ allFieldsOf (parse_search_query q) ∧
          F ∉ ALL_CIM_FIELDS ∧ isMappedKey F = false then 1 else 0) := by
  rw [check_map_field]
  have hmem : F ∈ (allFieldsOf (parse_search_query q)).filter isViolationField ↔
      F ∈ allFieldsOf (parse_search_query q) ∧
        F ∉ ALL_CIM_FIELDS ∧ isMappedKey F = false := by
    rw [List.mem_filter, isViolationField_iff]
  refine ⟨hmem, ?_⟩
  have hnd : ((allFieldsOf (parse_search_query q)).filter isViolationField).Nodup :=
    (nodup_allFieldsOf _).filter _
  by_cases hc : F ∈ allFieldsOf (parse_search_query q) ∧
      F ∉ ALL_CIM_FIELDS ∧ isMappedKey F = false
  · rw [if_pos hc]
    exact List.count_eq_one_of_mem hnd (hmem.mpr hc)
  · rw [if_neg hc]
    exact List.count_eq_zero_of_not_mem (fun hin => hc (hmem.mp hin))

/-!  Lemmas for the alias index and the alias-suggestion refinement. -/

theorem mem_addAlias {acc : List (String × List String)} {cim cf c : String}
    {P : String → Prop} :
    (∃ ks, (c, ks) ∈ addAlias acc cim cf ∧ ∃ k ∈ ks, P k) ↔
      ((∃ ks, (c, ks) ∈ acc ∧ ∃ k ∈ ks, P k) ∨ (c = cim ∧ P cf)) := by
  induction acc with
  | nil =>
    have he : addAlias [] cim cf = [(cim, [cf])] := rfl
    rw [he]
    constructor
    · rintro ⟨ks, hin, k, hk, hP⟩
      rw [List.mem_singleton] at hin
      injection hin with h1 h2
      subst h1
      subst h2
      rw [List.mem_singleton] at hk
      subst hk
      exact Or.inr ⟨rfl, hP⟩
    · rintro (⟨ks, hin, _⟩ | ⟨rfl, hP⟩)
      · exact absurd hin (List.not_mem_nil _)
      · exact ⟨[cf], List.mem_singleton.mpr rfl, cf, List.mem_singleton.mpr rfl, hP⟩
  | cons hd tl ih =>
    obtain ⟨k, v⟩ := hd
    by_cases hk : k = cim
    · subst hk
      have he : addAlias ((k, v) :: tl) k cf = (k, v ++ [cf]) :: tl := by
        simp [addAlias]
      rw [he]
      constructor
      · rintro ⟨ks, hin, hk'⟩
        rcases List.mem_cons.mp hin with hin | hin
        · injection hin with h1 h2
          rcases hk' with ⟨w, hw, hPw⟩
          rw [h2] at hw
          rcases List.mem_append.mp hw with hw | hw
          · refine Or.inl ⟨v, ?_, ⟨w, hw, hPw⟩⟩
            rw [h1]
            exact List.mem_cons_self _ _
          · rcases List.mem_singleton.mp hw with rfl
            exact Or.inr ⟨h1, hPw⟩
        · exact Or.inl ⟨ks, List.mem_cons_of_mem _ hin, hk'⟩
      · rintro (⟨ks, hin, hk'⟩ | ⟨rfl, hP⟩)
        · rcases List.mem_cons.mp hin with hin | hin
          · injection hin with h1 h2
            rcases hk' with ⟨w, hw, hPw⟩
            rw [h2] at hw
            refine ⟨v ++ [cf], ?_, ⟨w, List.mem_append.mpr (Or.inl hw), hPw⟩⟩
            rw [h1]
            exact List.mem_cons_self _ _
          · exact ⟨ks, List.mem_cons_of_mem _ hin, hk'⟩
        · exact ⟨v ++ [cf], List.mem_cons_self _ _,
            ⟨cf, List.mem_append.mpr (Or.inr (List.mem_singleton.mpr rfl)), hP⟩⟩
    · have he : addAlias ((k, v) :: tl) cim cf = (k, v) :: addAlias tl cim cf := by
        simp [addAlias, hk]
      rw [he]
      constructor
      · rintro ⟨ks, hin, hk'⟩
        rcases List.mem_cons.mp hin with hin | hin
        · exact Or.inl ⟨ks, List.mem_cons.mpr (Or.inl hin), hk'⟩
        · rcases ih.mp ⟨ks, hin, hk'⟩ with h | h
          · rcases h with ⟨ks', h1, h2⟩
            exact Or.inl ⟨ks', List.mem_cons_of_mem _ h1, h2⟩
          · exact Or.inr h
      · rintro (⟨ks, hin, hk'⟩ | h)
        · rcases List.mem_cons.mp hin with hin | hin
          · exact ⟨ks, List.mem_cons.mpr (Or.inl hin), hk'⟩
          · rcases ih.mpr (Or.inl ⟨ks, hin, hk'⟩) with ⟨ks', h1, h2⟩
            exact ⟨ks', List.mem_cons_of_mem _ h1, h2⟩
        · rcases ih.mpr (Or.inr h) with ⟨ks', h1, h2⟩
          exact ⟨ks', List.mem_cons_of_mem _ h1, h2⟩

theorem mem_foldl_addAlias {pairs : List (String × String)} :
    ∀ {acc : List (String × List String)} {c : String} {P : String → Prop},
    (∃ ks, (c, ks) ∈ pairs.foldl (fun a kv => addAlias a kv.2 kv.1) acc ∧ ∃ k ∈ ks, P k) ↔
      ((∃ ks, (c, ks) ∈ acc ∧ ∃ k ∈ ks, P k) ∨ ∃ kv ∈ pairs, kv.2 = c ∧ P kv.1) := by
  induction pairs with
  | nil => simp
  | cons hd tl ih =>
    intro acc c P
    rw [List.foldl_cons, ih, mem_addAlias]
    simp only [List.mem_cons]
    constructor
    · rintro ((h | ⟨rfl, hP⟩) | ⟨kv, hkv, h1, h2⟩)
      · exact Or.inl h
      · exact Or.inr ⟨hd, Or.inl rfl, rfl, hP⟩
      · exact Or.inr ⟨kv, Or.inr hkv, h1, h2⟩
    · rintro (h | ⟨kv, (hkv | hkv), h1, h2⟩)
      · exact Or.inl (Or.inl h)
      · subst hkv
        subst h1
        exact Or.inl (Or.inr ⟨rfl, h2⟩)
      · exact Or.inr ⟨kv, hkv, h1, h2⟩

theorem mem_suggest_alias {F c : String} :
    c ∈ suggest_alias F ↔
      ∃ kv ∈ cimPairsFlat, kv.2 = c ∧ lowerStr kv.1 = lowerStr F := by
  unfold suggest_alias
  rw [List.mem_map]
  constructor
  · rintro ⟨⟨a, ks⟩, he, rfl⟩
    rw [List.mem_filter] at he
    have hex : ∃ k ∈ ks, lowerStr k = lowerStr F := by
      have hpr := he.2
      simp only [List.contains, List.elem_iff, List.mem_map] at hpr
      rcases hpr with ⟨k, hk, hkeq⟩
      exact ⟨k, hk, hkeq⟩
    have hget := (@mem_foldl_addAlias cimPairsFlat []
      a (fun k => lowerStr k = lowerStr F)).mp ⟨ks, he.1, hex⟩
    rcases hget with ⟨ks', h1, _⟩ | h
    · exact absurd h1 (List.not_mem_nil _)
    · exact h
  · intro h
    have hmem : ∃ ks', (c, ks') ∈ get_field_aliases ∧
        ∃ k ∈ ks', lowerStr k = lowerStr F := by
      apply (@mem_foldl_addAlias cimPairsFlat []
        c (fun k => lowerStr k = lowerStr F)).mpr
      exact Or.inr h
    rcases hmem with ⟨ks, hin, k, hk, hkeq⟩
    refine ⟨(c, ks), ?_, rfl⟩
    rw [List.mem_filter]
    refine ⟨hin, ?_⟩
    simp only [List.contains, List.elem_iff, List.mem_map]
    exact ⟨k, hk, hkeq⟩

theorem mem_suggestSpecFirstSeen {F c : String} :
    c ∈ suggestSpecFirstSeen F ↔
      ∃ kv ∈ cimPairsFlat, kv.2 = c ∧ lowerStr kv.1 = lowerStr F := by
  simp only [suggestSpecFirstSeen, mem_foldl_addSet, List.not_mem_nil, false_or,
    List.mem_map, List.mem_filter, beq_iff_eq]
  constructor
  · rintro ⟨kv, ⟨h1, h2⟩, rfl⟩
    exact ⟨kv, h1, rfl, h2⟩
  · rintro ⟨kv, h1, rfl, h2⟩
    exact ⟨kv, ⟨h1, h2⟩, rfl⟩

theorem nodup_alias_index_keys : (get_field_aliases.map Prod.fst).Nodup := by
  decide

theorem nodup_lowered_flat_keys :
    (cimPairsFlat.map (fun kv => lowerStr kv.1)).Nodup := by
  decide

theorem nodup_suggest_alias (F : String) : (suggest_alias F).Nodup := by
  have hsub : (suggest_alias F).Sublist (get_field_aliases.map Prod.fst) :=
    (List.filter_sublist _).map _
  exact nodup_alias_index_keys.sublist hsub

theorem nodup_suggestSpecFirstSeen (F : String) :
    (suggestSpecFirstSeen F).Nodup :=
  nodup_foldl_addSet List.nodup_nil

/-- Two duplicate-free lists with the same members, all of whose members
agree pairwise, are equal. -/
theorem eq_of_nodup_mem_iff {l₁ l₂ : List String}
    (h₁ : l₁.Nodup) (h₂ : l₂.Nodup) (hm : ∀ x, x ∈ l₁ ↔ x ∈ l₂)
    (hone : ∀ x y, x ∈ l₁ → y ∈ l₁ → x = y) : l₁ = l₂ := by
  cases l₁ with
  | nil =>
    symm
    rw [List.eq_nil_iff_forall_not_mem]
    intro x hx
    exact (List.not_mem_nil x) ((hm x).mpr hx)
  | cons a l =>
    have hl : l = [] := by
      cases l with
      | nil => rfl
      | cons b m =>
        have hba : b = a := hone b a (by simp) (by simp)
        rw [List.nodup_cons] at h₁
        exact absurd (hba ▸ h₁.1) (fun h => h (by simp [hba]))
    subst hl
    have ha₂ : a ∈ l₂ := (hm a).mp (by simp)
    have hall : ∀ y ∈ l₂, y = a := by
      intro y hy
      exact hone y a ((hm y).mpr hy) (by simp)
    cases l₂ with
    | nil => exact absurd ha₂ (List.not_mem_nil a)
    | cons b m =>
      have hba : b = a := hall b (by simp)
      subst hba
      have hme : m = [] := by
        rw [List.eq_nil_iff_forall_not_mem]
        intro y hy
        have : y = b := hall y (List.mem_cons_of_mem _ hy)
        rw [List.nodup_cons] at h₂
        exact h₂.1 (this ▸ hy)
      rw [hme]

/-- C5: `suggest_alias` coincides with the spec-side first-seen scan of
the flattened mapping table: it returns exactly the canonical names
with a case-insensitive key match, deduplicated, and the empty list
when no key matches. -/
theorem suggest_alias_eq_spec :
    ∀ F : String, suggest_alias F = suggestSpecFirstSeen F := by
  intro F
  apply eq_of_nodup_mem_iff (nodup_suggest_alias F) (nodup_suggestSpecFirstSeen F)
  · intro x
    rw [mem_suggest_alias, mem_suggestSpecFirstSeen]
  · intro x y hx hy
    rcases mem_suggest_alias.mp hx with ⟨kx, hkx, hx2, hxl⟩
    rcases mem_suggest_alias.mp hy with ⟨ky, hky, hy2, hyl⟩
    have : kx = ky :=
      List.inj_on_of_nodup_map nodup_lowered_flat_keys hkx hky (by rw [hxl, hyl])
    rw [← hx2, ← hy2, this]

/-!  Concrete counterexample inputs. -/

def qRenameTwoPairs : String := "rename A as B, C as D"
def qEvalTwoAssigns : String := "eval a = 1, b = 2"
def qLookupStage : String := "lookup T in1, in2 OUTPUT out1, out2"
def qUnknownVerb : String := "sort foo"
def fldD : String := "D"
def fldB : String := "b"
def fldOut1 : String := "out1"
def fldFoo : String := "foo"

/-- C6 counterexample: in the two-pair stage `rename A as B, C as D`
the second pair is not extracted: `D` is not in `renamed` (the only
entry is `B,` with the trailing comma). -/
theorem rename_second_pair_not_renamed :
    ¬ fldD ∈ (parse_search_query qRenameTwoPairs).renamed := by decide

/-- C7 counterexample: in `eval a = 1, b = 2` the second assignment is
not extracted: `b` is not in `created`. -/
theorem eval_second_assignment_not_created :
    ¬ fldB ∈ (parse_search_query qEvalTwoAssigns).created := by decide

/-- C3 counterexample: for `lookup T in1, in2 OUTPUT out1, out2` the
output field `out1` is not in `created` (the code files every lookup
field under `used`). -/
theorem lookup_output_not_created :
    ¬ fldOut1 ∈ (parse_search_query qLookupStage).created := by decide

/-- C8 counterexample: a stage with the unrecognized verb `sort` gets
no fallback extraction: `foo` is not in `used` (the record stays
empty). -/
theorem unknown_verb_no_fallback :
    ¬ fldFoo ∈ (parse_search_query qUnknownVerb).used := by decide

/-!  Character-class and trimming facts. -/

theorem isW_not_sp {c : Char} (h : isW c = true) : isSp c = false := by
  cases hs : isSp c
  · rfl
  · exfalso
    have h6 : c = ' ' ∨ c = '\t' ∨ c = '\n' ∨ c = '\r' ∨ c = '\x0b' ∨ c = '\x0c' := by
      simpa [isSp, or_assoc] using hs
    rcases h6 with rfl | rfl | rfl | rfl | rfl | rfl <;> exact absurd h (by decide)

theorem isW_ne {c d : Char} (h : isW c = true) (hd : isW d = false) : c ≠ d := by
  intro he
  subst he
  rw [h] at hd
  cases hd

theorem not_mem_of_all_isW {t : List Char} {d : Char}
    (h : t.all isW = true) (hd : isW d = false) : ¬ d ∈ t := by
  intro hm
  have := List.all_eq_true.mp h d hm
  rw [hd] at this
  cases this

theorem mem_all_isW {t : List Char} {c : Char}
    (h : t.all isW = true) (hc : c ∈ t) : isW c = true :=
  List.all_eq_true.mp h c hc

theorem takeWhile_nil_of_head {p : Char → Bool} {c : Char} {t : List Char}
    (h : p c = false) : (c :: t).takeWhile p = [] := by
  simp [List.takeWhile_cons, h]

theorem dropWhile_id_of_head {p : Char → Bool} {c : Char} {t : List Char}
    (h : p c = false) : (c :: t).dropWhile p = c :: t := by
  simp [List.dropWhile_cons, h]

theorem takeWhile_append_all {p : Char → Bool} {l₁ l₂ : List Char}
    (h : ∀ c ∈ l₁, p c = true) :
    (l₁ ++ l₂).takeWhile p = l₁ ++ l₂.takeWhile p := by
  induction l₁ with
  | nil => simp
  | cons a l ih =>
    have ha : p a = true := h a (List.mem_cons_self _ _)
    simp only [List.cons_append, List.takeWhile_cons, ha, if_pos]
    rw [ih (fun c hc => h c (List.mem_cons_of_mem _ hc))]

theorem takeWhile_eq_self_of_all {p : Char → Bool} {t : List Char}
    (h : ∀ c ∈ t, p c = true) : t.takeWhile p = t := by
  have h2 : (t ++ []).takeWhile p = t ++ [].takeWhile p := takeWhile_append_all h
  simpa using h2

/-- A word-only name survives `strip()` unchanged. -/
theorem pyTrim_word {t : List Char} (h : t.all isW = true) : pyTrimL t = t := by
  unfold pyTrimL
  cases t with
  | nil => rfl
  | cons c t' =>
    have hc : isW c = true := mem_all_isW h (List.mem_cons_self _ _)
    rw [dropWhile_id_of_head (isW_not_sp hc)]
    cases hr : (c :: t').reverse with
    | nil => simp at hr
    | cons d r =>
      have hd : d ∈ c :: t' := by
        rw [← List.mem_reverse, hr]
        exact List.mem_cons_self _ _
      have h2 : List.dropWhile isSp (d :: r) = d :: r :=
        dropWhile_id_of_head (isW_not_sp (mem_all_isW h hd))
      rw [h2, ← hr, List.reverse_reverse]

/-- `strip()` leaves text alone whose first character is not whitespace
and whose trailing block `w` is a non-empty word. -/
theorem pyTrim_concat {c : Char} {m w : List Char} (hc : isSp c = false)
    (hw : w ≠ []) (hwall : w.all isW = true) :
    pyTrimL (c :: (m ++ w)) = c :: (m ++ w) := by
  unfold pyTrimL
  rw [dropWhile_id_of_head hc]
  cases hr : w.reverse with
  | nil => exact absurd (by simpa using hr) hw
  | cons d r =>
    have hd : d ∈ w := by
      rw [← List.mem_reverse, hr]
      exact List.mem_cons_self _ _
    have hrev : (c :: (m ++ w)).reverse = d :: (r ++ (m.reverse ++ [c])) := by
      rw [List.reverse_cons, List.reverse_append, hr]
      simp
    rw [hrev, dropWhile_id_of_head (isW_not_sp (mem_all_isW hwall hd))]
    have : (d :: (r ++ (m.reverse ++ [c]))).reverse = (c :: (m ++ w)).reverse.reverse := by
      rw [hrev]
    rw [this, List.reverse_reverse]

/-- `strip()` leaves text alone whose first character is not whitespace
and whose trailing block has no leading whitespace when reversed. -/
theorem pyTrim_concat_of_trimmed {c : Char} {m w : List Char} (hc : isSp c = false)
    (hw : w ≠ []) (hwt : w.reverse.dropWhile isSp = w.reverse) :
    pyTrimL (c :: (m ++ w)) = c :: (m ++ w) := by
  unfold pyTrimL
  rw [dropWhile_id_of_head hc]
  cases hr : w.reverse with
  | nil => exact absurd (by simpa using hr) hw
  | cons d r =>
    have hd : isSp d = false := by
      rw [hr] at hwt
      by_contra hds
      have hds' : isSp d = true := by
        cases hds2 : isSp d
        · exact absurd hds2 hds
        · rfl
      rw [List.dropWhile_cons, hds'] at hwt
      have hlen := congrArg List.length hwt
      have hle : (List.dropWhile isSp r).length ≤ r.length :=
        (List.dropWhile_sublist isSp).length_le
      simp at hlen
      omega
    have hrev : (c :: (m ++ w)).reverse = d :: (r ++ (m.reverse ++ [c])) := by
      rw [List.reverse_cons, List.reverse_append, hr]
      simp
    rw [hrev, dropWhile_id_of_head hd]
    have : (d :: (r ++ (m.reverse ++ [c]))).reverse = (c :: (m ++ w)).reverse.reverse := by
      rw [hrev]
    rw [this, List.reverse_reverse]

/-!  Splitting and single-stage parsing. -/

theorem splitOnPipe_no_pipe {t : List Char} (h : ¬ '|' ∈ t) : splitOnPipe t = [t] := by
  induction t with
  | nil => rfl
  | cons c t ih =>
    have hc : c ≠ '|' := fun he => h (he ▸ List.mem_cons_self _ _)
    have ht : ¬ '|' ∈ t := fun hm => h (List.mem_cons_of_mem _ hm)
    simp only [splitOnPipe, if_neg hc, ih ht]

theorem commandsOf_single {q : String} (h : ¬ '|' ∈ q.data)
    (hne : pyTrimL q.data ≠ []) : commandsOf q = [pyTrimL q.data] := by
  unfold commandsOf
  rw [splitOnPipe_no_pipe h]
  simp [hne]

theorem commandsOf_single_empty {q : String} (h : ¬ '|' ∈ q.data)
    (he : pyTrimL q.data = []) : commandsOf q = [] := by
  unfold commandsOf
  rw [splitOnPipe_no_pipe h]
  simp [he]

theorem parse_single_stage {q : String} (h : ¬ '|' ∈ q.data)
    (hne : pyTrimL q.data ≠ []) :
    parse_search_query q = stageStep ⟨[], [], []⟩ (pyTrimL q.data) := by
  unfold parse_search_query
  rw [commandsOf_single h hne]
  rfl

/-!  Evaluation lemmas for the dispatch in `stageStep`. -/

theorem stageStep_rename {u : FieldsUsage} {cmd : List Char}
    (h1 : cmd.takeWhile isW ≠ []) (h2 : verbOf cmd = vRename) :
    stageStep u cmd =
      { u with renamed :=
          (extract_fields_from_rename (strOf cmd)).foldl (fun s p => addSet s p.2) u.renamed } := by
  unfold stageStep
  rw [if_neg h1, if_pos h2]

theorem stageStep_eval {u : FieldsUsage} {cmd : List Char}
    (h1 : cmd.takeWhile isW ≠ []) (h2 : verbOf cmd = vEval) :
    stageStep u cmd =
      { u with created := (extract_fields_from_eval (strOf cmd)).foldl addSet u.created } := by
  unfold stageStep
  rw [if_neg h1, if_neg (show ¬ verbOf cmd = vRename by rw [h2]; decide), if_pos h2]

theorem stageStep_lookup {u : FieldsUsage} {cmd : List Char}
    (h1 : cmd.takeWhile isW ≠ []) (h2 : verbOf cmd = vLookup) :
    stageStep u cmd =
      { u with used := (extract_fields_from_lookup (strOf cmd)).foldl addSet u.used } := by
  unfold stageStep
  rw [if_neg h1, if_neg (show ¬ verbOf cmd = vRename by rw [h2]; decide),
    if_neg (show ¬ verbOf cmd = vEval by rw [h2]; decide),
    if_neg (show ¬ verbOf cmd = vStats by rw [h2]; decide), if_pos h2]

theorem stageStep_fallback {u : FieldsUsage} {cmd : List Char}
    (h1 : cmd.takeWhile isW ≠ [])
    (h2 : fallbackVerbs.contains (verbOf cmd) = true)
    (h3 : verbOf cmd ≠ vRename) (h4 : verbOf cmd ≠ vEval)
    (h5 : verbOf cmd ≠ vStats) (h6 : verbOf cmd ≠ vLookup) :
    stageStep u cmd =
      { u with used := (fallbackFields cmd).foldl (fun s f => addSet s (strOf f)) u.used } := by
  unfold stageStep
  rw [if_neg h1, if_neg h3, if_neg h4, if_neg h5, if_neg h6, if_pos h2]

theorem stageStep_skip {u : FieldsUsage} {cmd : List Char}
    (h2 : fallbackVerbs.contains (verbOf cmd) = false)
    (h3 : verbOf cmd ≠ vRename) (h4 : verbOf cmd ≠ vEval)
    (h5 : verbOf cmd ≠ vStats) (h6 : verbOf cmd ≠ vLookup) :
    stageStep u cmd = u := by
  unfold stageStep
  by_cases h1 : cmd.takeWhile isW = []
  · rw [if_pos h1]
  · rw [if_neg h1, if_neg h3, if_neg h4, if_neg h5, if_neg h6, if_neg (by rw [h2]; decide)]

/-!  Evaluation lemmas for the matcher combinators. -/

theorem ciLit_refl : ∀ (L t : List Char), ciLit L (L ++ t) = some t := by
  intro L
  induction L with
  | nil => intro t; rfl
  | cons l ls ih =>
    intro t
    rw [List.cons_append]
    show (if lowC l = lowC l then ciLit ls (ls ++ t) else none) = some t
    rw [if_pos rfl]
    exact ih t

theorem ciLit_head_ne {l c : Char} {ls t : List Char} (h : ¬ lowC l = lowC c) :
    ciLit (l :: ls) (c :: t) = none := by
  show (if lowC l = lowC c then ciLit ls t else none) = none
  rw [if_neg h]

/-- `L` matches case-insensitively at the start of `t`. -/
def ciPre (L t : List Char) : Bool := (ciLit L t).isSome

theorem ciPre_false_iff {L t : List Char} : ciPre L t = false ↔ ciLit L t = none := by
  unfold ciPre
  cases ciLit L t <;> simp

theorem ciLit_append_space_none (L : List Char) (hL : ∀ l ∈ L, lowC l ≠ ' ') :
    ∀ (x u : List Char), ciPre L x = false → ciLit L (x ++ ' ' :: u) = none := by
  induction L with
  | nil =>
    intro x u h
    exact absurd h (by simp [ciPre, ciLit])
  | cons l ls ih =>
    intro x u h
    cases x with
    | nil =>
      have hne : ¬ lowC l = lowC ' ' := by
        have := hL l (List.mem_cons_self _ _)
        simpa [lowC] using this
      exact ciLit_head_ne hne
    | cons c x' =>
      by_cases hc : lowC l = lowC c
      · have h' : ciPre ls x' = false := by
          rw [ciPre_false_iff] at h ⊢
          by_contra hh
          cases hcc : ciLit ls x' with
          | none => exact hh hcc
          | some w =>
            have : ciLit (l :: ls) (c :: x') = some w := by
              show (if lowC l = lowC c then ciLit ls x' else none) = some w
              rw [if_pos hc, hcc]
            rw [this] at h
            cases h
        rw [List.cons_append]
        show (if lowC l = lowC c then ciLit ls (x' ++ ' ' :: u) else none) = none
        rw [if_pos hc]
        exact ih (fun l' hl' => hL l' (List.mem_cons_of_mem _ hl')) x' u h'
      · rw [List.cons_append]
        exact ciLit_head_ne hc

theorem takeWhile_sp_one {c : Char} {u : List Char} (hc : isSp c = false) :
    (' ' :: c :: u).takeWhile isSp = [' '] := by
  rw [List.takeWhile_cons, if_pos (by decide), takeWhile_nil_of_head hc]

theorem wsPlusFirst_none {t : List Char} {k : List Char → Option α}
    (h : t.takeWhile isSp = []) : wsPlusFirst t k = none := by
  unfold wsPlusFirst
  rw [h]
  rfl

theorem wsPlusFirst_one {c : Char} {u : List Char} {k : List Char → Option α}
    (hc : isSp c = false) : wsPlusFirst (' ' :: c :: u) k = k (c :: u) := by
  unfold wsPlusFirst
  rw [takeWhile_sp_one hc]
  show wsDown k (' ' :: c :: u) 1 = k (c :: u)
  cases hk : k (c :: u) <;> simp [wsDown, hk]

theorem wsStarFirst_zero {t : List Char} {k : List Char → Option α}
    (h : t.takeWhile isSp = []) : wsStarFirst t k = k t := by
  unfold wsStarFirst
  rw [h]
  rfl

theorem wsStarFirst_one_hit {c : Char} {u : List Char} {k : List Char → Option α} {r : α}
    (hc : isSp c = false) (h : k (c :: u) = some r) :
    wsStarFirst (' ' :: c :: u) k = some r := by
  unfold wsStarFirst
  rw [takeWhile_sp_one hc]
  show starDown k (' ' :: c :: u) 1 = some r
  simp [starDown, h]

theorem lazyDotGo_hit {k : List Char → List Char → Option α} {racc rest : List Char} {r : α}
    (h : k racc.reverse rest = some r) : lazyDotGo k racc rest = some r := by
  cases rest <;> simp [lazyDotGo, h]

theorem lazyDotGo_skip (k : List Char → List Char → Option α) :
    ∀ (A racc u : List Char), (∀ c ∈ A, c ≠ '\n') →
      (∀ i, i < A.length → k (racc.reverse ++ A.take i) (A.drop i ++ u) = none) →
      lazyDotGo k racc (A ++ u) = lazyDotGo k (A.reverse ++ racc) u := by
  intro A
  induction A with
  | nil =>
    intro racc u _ _
    simp
  | cons a A ih =>
    intro racc u hnl hf
    have h0 : k racc.reverse (a :: (A ++ u)) = none := by
      have h := hf 0 (Nat.succ_pos _)
      simpa using h
    have ha : a ≠ '\n' := hnl a (List.mem_cons_self _ _)
    have hf' : ∀ i, i < A.length →
        k ((a :: racc).reverse ++ A.take i) (A.drop i ++ u) = none := by
      intro i hi
      have h := hf (i + 1) (Nat.succ_lt_succ hi)
      simpa [List.append_assoc] using h
    have hnl' : ∀ c ∈ A, c ≠ '\n' := fun c hc => hnl c (List.mem_cons_of_mem _ hc)
    have hstep : lazyDotGo k racc ((a :: A) ++ u) = lazyDotGo k (a :: racc) (A ++ u) := by
      rw [List.cons_append]
      simp [lazyDotGo, h0, ha]
    rw [hstep, ih (a :: racc) u hnl' hf']
    simp [List.reverse_cons, List.append_assoc]

theorem lazyDotFirst_skip_hit {A u : List Char} {k : List Char → List Char → Option α} {r : α}
    (hnl : ∀ c ∈ A, c ≠ '\n')
    (hfail : ∀ i, i < A.length → k (A.take i) (A.drop i ++ u) = none)
    (hok : k A u = some r) : lazyDotFirst (A ++ u) k = some r := by
  unfold lazyDotFirst
  rw [lazyDotGo_skip k A [] u hnl (by simpa using hfail)]
  apply lazyDotGo_hit
  simpa using hok

theorem greedyDotFirst_full {t : List Char} {k : List Char → List Char → Option α} {r : α}
    (hnl : ∀ c ∈ t, c ≠ '\n') (h : k t [] = some r) : greedyDotFirst t k = some r := by
  unfold greedyDotFirst
  have ht : t.takeWhile (fun c => c ≠ '\n') = t :=
    takeWhile_eq_self_of_all (by intro c hc; simpa using hnl c hc)
  rw [ht]
  rcases ht0 : t.length with _ | n
  · have hte : t = [] := List.length_eq_zero.mp ht0
    subst hte
    exact h
  · have h1 : t.take (n + 1) = t := by
      rw [← ht0, List.take_length]
    have h2 : t.drop (n + 1) = [] := by
      rw [← ht0, List.drop_length]
    simp [gdDown, h1, h2, h]

theorem endOrWsM_word {c : Char} {t : List Char} (h : isSp c = false) :
    endOrWsM (c :: t) = none := by
  simp [endOrWsM, h]

theorem findAllFuel_nil {m : List Char → Option (α × List Char)} (hm : m [] = none) :
    ∀ f, findAllFuel m f [] = [] := by
  intro f
  cases f <;> simp [findAllFuel, hm]

theorem findAllFuel_step {m : List Char → Option (α × List Char)} {t : List Char}
    {g : α} {rest : List Char} {f : Nat} (h : m t = some (g, rest)) :
    findAllFuel m (f + 1) t = g :: findAllFuel m f rest := by
  simp [findAllFuel, h]

theorem findAllFuel_none_all {m : List Char → Option (α × List Char)} :
    ∀ (f : Nat) (t : List Char), (∀ u x, x ++ u = t → m u = none) →
      findAllFuel m f t = [] := by
  intro f
  induction f with
  | zero => intro t _; rfl
  | succ f ih =>
    intro t h
    have h0 : m t = none := h t [] rfl
    cases t with
    | nil => simp [findAllFuel, h0]
    | cons c t' =>
      have hstep : findAllFuel m (f + 1) (c :: t') = findAllFuel m f t' := by
        simp [findAllFuel, h0]
      rw [hstep]
      exact ih t' (fun u x hx => h u (c :: x) (by rw [← hx]; rfl))

/-- Case-insensitive substring test, the scan of `re.findall` reduced
to the leading literal of a pattern. -/
def hasCiSub (L : List Char) : List Char → Bool
  | [] => ciPre L []
  | c :: t => ciPre L (c :: t) || hasCiSub L t

theorem ciLit_none_of_hasCiSub_false {L : List Char} :
    ∀ {t : List Char}, hasCiSub L t = false → ∀ u x, x ++ u = t → ciLit L u = none := by
  intro t
  induction t with
  | nil =>
    intro h u x hx
    have hu : u = [] := (List.append_eq_nil.mp hx).2
    subst hu
    rw [← ciPre_false_iff]
    exact h
  | cons c t ih =>
    intro h u x hx
    have hor : ciPre L (c :: t) = false ∧ hasCiSub L t = false := by
      have : (ciPre L (c :: t) || hasCiSub L t) = false := h
      exact Bool.or_eq_false_iff.mp this
    cases x with
    | nil =>
      have hu : u = c :: t := by simpa using hx
      subst hu
      exact ciPre_false_iff.mp hor.1
    | cons d x' =>
      have hx' : x' ++ u = t := by
        injection hx with _ h2
      exact ih hor.2 u x' hx'

theorem drop_word_head {A : List Char} (hAw : A.all isW = true) {i : Nat} (hi : i < A.length) :
    ∃ c w, A.drop i = c :: w ∧ isW c = true := by
  cases hd : A.drop i with
  | nil =>
    have := List.drop_eq_nil_iff.mp hd
    omega
  | cons c w =>
    refine ⟨c, w, rfl, ?_⟩
    have hc : c ∈ A := List.mem_of_mem_drop (by rw [hd]; exact List.mem_cons_self _ _)
    exact mem_all_isW hAw hc

theorem matchRenameAt_pair {A B : List Char}
    (hA : A ≠ []) (hAw : A.all isW = true) (hB : B ≠ []) (hBw : B.all isW = true) :
    matchRenameAt (litRename ++ ' ' :: (A ++ ' ' :: 'a' :: 's' :: ' ' :: B)) =
      some ((A, B), []) := by
  have hmid : ∀ u : List Char, ciLit litAs ('a' :: 's' :: u) = some u := by
    intro u
    exact ciLit_refl litAs u
  -- the innermost continuation succeeding on B
  have hk3 : ∀ g1 : List Char,
      lazyDotFirst B (fun g2 t7 => (endOrWsM t7).map fun rest => ((g1, g2), rest)) =
        some ((g1, B), []) := by
    intro g1
    have h5 : lazyDotFirst (B ++ [])
        (fun g2 t7 => (endOrWsM t7).map fun rest => ((g1, g2), rest)) =
        some ((g1, B), []) :=
      lazyDotFirst_skip_hit
        (by intro c hc; exact isW_ne (mem_all_isW hBw hc) (by decide))
        (by
          intro i hi
          obtain ⟨c, w, hd, hcW⟩ := drop_word_head hBw hi
          rw [hd, List.cons_append]
          simp [endOrWsM_word (isW_not_sp hcW)])
        (by simp [endOrWsM])
    simpa using h5
  -- the continuation after `rename\s+`, applied to the captured `A`
  have hok : ∀ u₁, u₁ = ' ' :: 'a' :: 's' :: ' ' :: B →
      (fun g1 t3 => wsPlusFirst t3 fun t4 =>
        match ciLit litAs t4 with
        | none => none
        | some t5 =>
          wsPlusFirst t5 fun t6 =>
          lazyDotFirst t6 fun g2 t7 =>
            (endOrWsM t7).map fun rest => ((g1, g2), rest)) A u₁ =
        some ((A, B), []) := by
    intro u₁ hu
    subst hu
    show wsPlusFirst (' ' :: 'a' :: 's' :: ' ' :: B) _ = some ((A, B), [])
    rw [wsPlusFirst_one (by decide : isSp 'a' = false)]
    show (match ciLit litAs ('a' :: 's' :: (' ' :: B)) with
      | none => none
      | some t5 =>
        wsPlusFirst t5 fun t6 =>
        lazyDotFirst t6 fun g2 t7 =>
          (endOrWsM t7).map fun rest => ((A, g2), rest)) = some ((A, B), [])
    rw [hmid (' ' :: B)]
    show wsPlusFirst (' ' :: B) _ = some ((A, B), [])
    cases B with
    | nil => exact absurd rfl hB
    | cons b B' =>
      have hbW : isW b = true := mem_all_isW hBw (List.mem_cons_self _ _)
      rw [wsPlusFirst_one (isW_not_sp hbW)]
      exact hk3 A
  unfold matchRenameAt
  rw [ciLit_refl litRename (' ' :: (A ++ ' ' :: 'a' :: 's' :: ' ' :: B))]
  show wsPlusFirst (' ' :: (A ++ ' ' :: 'a' :: 's' :: ' ' :: B)) _ = some ((A, B), [])
  cases A with
  | nil => exact absurd rfl hA
  | cons a A' =>
    have haW : isW a = true := mem_all_isW hAw (List.mem_cons_self _ _)
    rw [List.cons_append, wsPlusFirst_one (isW_not_sp haW)]
    show lazyDotFirst (a :: (A' ++ ' ' :: 'a' :: 's' :: ' ' :: B)) _ = some (((a :: A'), B), [])
    rw [← List.cons_append]
    apply lazyDotFirst_skip_hit
    · intro c hc
      exact isW_ne (mem_all_isW hAw hc) (by decide)
    · intro i hi
      obtain ⟨c, w, hd, hcW⟩ := drop_word_head hAw hi
      rw [hd, List.cons_append]
      exact wsPlusFirst_none (takeWhile_nil_of_head (isW_not_sp hcW))
    · exact hok _ rfl

theorem strOf_data (s : String) : strOf s.data = s := rfl

def renameStage (A B : String) : String := "rename " ++ A ++ " as " ++ B

theorem renameStage_data (A B : String) :
    (renameStage A B).data =
      litRename ++ ' ' :: (A.data ++ ' ' :: 'a' :: 's' :: ' ' :: B.data) := by
  show ("rename " ++ A ++ " as " ++ B).data = _
  simp only [String.data_append]
  show "rename ".data ++ A.data ++ " as ".data ++ B.data = _
  have h1 : "rename ".data = litRename ++ [' '] := rfl
  have h2 : " as ".data = [' ', 'a', 's', ' '] := rfl
  rw [h1, h2]
  simp [List.append_assoc]

/-- C6 amended: the rename extractor takes only the first `OLD as NEW`
pair of a stage (with a trailing comma kept in `NEW` when further pairs
follow); for the single-pair stage `rename A as B` with word-only
names, `B` is the only field classified - `renamed` is exactly `{B}`
and `created` and `used` stay empty. -/
theorem rename_first_pair_only (A B : String)
    (hA : A.data ≠ []) (hAw : A.data.all isW = true)
    (hB : B.data ≠ []) (hBw : B.data.all isW = true) :
    parse_search_query (renameStage A B) = ⟨[B], [], []⟩ := by
  have hdata := renameStage_data A B
  have hpipe : ¬ '|' ∈ (renameStage A B).data := by
    rw [hdata]
    intro hm
    rcases List.mem_append.mp hm with hm | hm
    · exact absurd hm (by decide)
    · rcases List.mem_cons.mp hm with hm | hm
      · exact absurd hm (by decide)
      · rcases List.mem_append.mp hm with hm | hm
        · exact not_mem_of_all_isW hAw (by decide) hm
        · rcases List.mem_cons.mp hm with hm | hm
          · exact absurd hm (by decide)
          · rcases List.mem_cons.mp hm with hm | hm
            · exact absurd hm (by decide)
            · rcases List.mem_cons.mp hm with hm | hm
              · exact absurd hm (by decide)
              · rcases List.mem_cons.mp hm with hm | hm
                · exact absurd hm (by decide)
                · exact not_mem_of_all_isW hBw (by decide) hm
  have htrim : pyTrimL (renameStage A B).data = (renameStage A B).data := by
    rw [hdata]
    have hshape : litRename ++ ' ' :: (A.data ++ ' ' :: 'a' :: 's' :: ' ' :: B.data) =
        'r' :: (('e' :: 'n' :: 'a' :: 'm' :: 'e' :: ' ' :: A.data ++ [' ', 'a', 's', ' ']) ++ B.data) := by
      show ('r' :: "ename".data) ++ _ = _
      simp [List.append_assoc]
    rw [hshape, pyTrim_concat (by decide) hB hBw]
  have hne : pyTrimL (renameStage A B).data ≠ [] := by
    rw [htrim, hdata]
    simp [litRename]
  have hverb : (renameStage A B).data.takeWhile isW = litRename := by
    rw [hdata]
    rw [takeWhile_append_all (by decide)]
    rw [takeWhile_nil_of_head (by decide : isW ' ' = false), List.append_nil]
  rw [parse_single_stage hpipe hne, htrim]
  rw [stageStep_rename (by rw [hverb]; decide) (by
    unfold verbOf
    rw [hverb]
    rfl)]
  have hfind : renameFindAll (strOf (renameStage A B).data).data = [(A.data, B.data)] := by
    rw [strOf_data, hdata]
    unfold renameFindAll
    rw [findAllFuel_step (matchRenameAt_pair hA hAw hB hBw)]
    rw [findAllFuel_nil rfl]
  have hex : extract_fields_from_rename (strOf (renameStage A B).data) = [(A, B)] := by
    unfold extract_fields_from_rename
    rw [hfind]
    simp [pyTrim_word hAw, pyTrim_word hBw, strOf_data]
  rw [hex]
  show (⟨addSet [] B, [], []⟩ : FieldsUsage) = ⟨[B], [], []⟩
  rw [show addSet [] B = [B] from rfl]

def witRenA : String := "srcip"
def witRenB : String := "source"

/-- Witness for the amended rename claim at concrete names. -/
theorem rename_first_pair_only_witness :
    witRenA.data ≠ [] ∧ witRenA.data.all isW = true ∧
      witRenB.data ≠ [] ∧ witRenB.data.all isW = true ∧
      parse_search_query (renameStage witRenA witRenB) = ⟨[witRenB], [], []⟩ :=
  ⟨by decide, by decide, by decide, by decide,
    rename_first_pair_only witRenA witRenB (by decide) (by decide) (by decide) (by decide)⟩

theorem matchEvalAt_first {F E : List Char} (hF : F ≠ []) (hFw : F.all isW = true) :
    matchEvalAt (litEval ++ ' ' :: (F ++ ' ' :: '=' :: ' ' :: E)) = some (F, ' ' :: E) := by
  unfold matchEvalAt
  rw [ciLit_refl litEval (' ' :: (F ++ ' ' :: '=' :: ' ' :: E))]
  show wsPlusFirst (' ' :: (F ++ ' ' :: '=' :: ' ' :: E)) _ = some (F, ' ' :: E)
  cases F with
  | nil => exact absurd rfl hF
  | cons f F' =>
    have hfW : isW f = true := mem_all_isW hFw (List.mem_cons_self _ _)
    rw [List.cons_append, wsPlusFirst_one (isW_not_sp hfW)]
    show lazyDotFirst (f :: (F' ++ ' ' :: '=' :: ' ' :: E)) _ = some ((f :: F'), ' ' :: E)
    rw [← List.cons_append]
    apply lazyDotFirst_skip_hit
    · intro c hc
      exact isW_ne (mem_all_isW hFw hc) (by decide)
    · intro i hi
      obtain ⟨c, w, hd, hcW⟩ := drop_word_head hFw hi
      rw [hd, List.cons_append]
      show wsStarFirst (c :: (w ++ ' ' :: '=' :: ' ' :: E)) _ = none
      rw [wsStarFirst_zero (takeWhile_nil_of_head (isW_not_sp hcW))]
      show (if c = '=' then _ else none) = none
      rw [if_neg (isW_ne hcW (by decide : isW '=' = false))]
    · show wsStarFirst (' ' :: '=' :: ' ' :: E) _ = some ((f :: F'), ' ' :: E)
      apply wsStarFirst_one_hit (by decide : isSp '=' = false)
      show (if '=' = '=' then some ((f :: F'), ' ' :: E) else none) = some ((f :: F'), ' ' :: E)
      rw [if_pos rfl]

theorem matchEvalAt_none {t : List Char} (h : ciLit litEval t = none) :
    matchEvalAt t = none := by
  unfold matchEvalAt
  rw [h]

def evalStage (F E : String) : String := "eval " ++ F ++ " = " ++ E

theorem evalStage_data (F E : String) :
    (evalStage F E).data =
      litEval ++ ' ' :: (F.data ++ ' ' :: '=' :: ' ' :: E.data) := by
  show ("eval " ++ F ++ " = " ++ E).data = _
  simp only [String.data_append]
  show ('e' :: 'v' :: 'a' :: 'l' :: ' ' :: []) ++ F.data ++ (' ' :: '=' :: ' ' :: []) ++ E.data =
      ('e' :: 'v' :: 'a' :: 'l' :: []) ++ ' ' :: (F.data ++ ' ' :: '=' :: ' ' :: E.data)
  simp [List.append_assoc]

/-- C7 amended: only the first top-level `FIELD = ` assignment of an
`eval` stage is extracted: for `eval F = E` where `F` is a word-only
name and `E` any pipe-free expression that does not contain `eval`
case-insensitively and has no trailing whitespace, `created` is exactly
`{F}`; later comma-separated assignments inside `E` are ignored. -/
theorem eval_first_assignment_only (F E : String)
    (hF : F.data ≠ []) (hFw : F.data.all isW = true)
    (hE : E.data ≠ [])
    (hEt : E.data.reverse.dropWhile isSp = E.data.reverse)
    (hsub : hasCiSub litEval E.data = false)
    (hpipe : ¬ '|' ∈ E.data) :
    parse_search_query (evalStage F E) = ⟨[], [F], []⟩ := by
  have hdata := evalStage_data F E
  have hqpipe : ¬ '|' ∈ (evalStage F E).data := by
    rw [hdata]
    intro hm
    rcases List.mem_append.mp hm with hm | hm
    · exact absurd hm (by decide)
    · rcases List.mem_cons.mp hm with hm | hm
      · exact absurd hm (by decide)
      · rcases List.mem_append.mp hm with hm | hm
        · exact not_mem_of_all_isW hFw (by decide) hm
        · rcases List.mem_cons.mp hm with hm | hm
          · exact absurd hm (by decide)
          · rcases List.mem_cons.mp hm with hm | hm
            · exact absurd hm (by decide)
            · rcases List.mem_cons.mp hm with hm | hm
              · exact absurd hm (by decide)
              · exact hpipe hm
  have htrim : pyTrimL (evalStage F E).data = (evalStage F E).data := by
    rw [hdata]
    have hshape : litEval ++ ' ' :: (F.data ++ ' ' :: '=' :: ' ' :: E.data) =
        'e' :: (('v' :: 'a' :: 'l' :: ' ' :: F.data ++ [' ', '=', ' ']) ++ E.data) := by
      show ('e' :: "val".data) ++ _ = _
      simp [List.append_assoc]
    rw [hshape, pyTrim_concat_of_trimmed (by decide) hE hEt]
  have hne : pyTrimL (evalStage F E).data ≠ [] := by
    rw [htrim, hdata]
    simp [litEval]
  have hverb : (evalStage F E).data.takeWhile isW = litEval := by
    rw [hdata]
    rw [takeWhile_append_all (by decide)]
    rw [takeWhile_nil_of_head (by decide : isW ' ' = false), List.append_nil]
  rw [parse_single_stage hqpipe hne, htrim]
  rw [stageStep_eval (by rw [hverb]; decide) (by
    unfold verbOf
    rw [hverb]
    rfl)]
  have hscan : ∀ u x : List Char, x ++ u = ' ' :: E.data → matchEvalAt u = none := by
    intro u x hx
    cases x with
    | nil =>
      have hu : u = ' ' :: E.data := by simpa using hx
      subst hu
      exact matchEvalAt_none (ciLit_head_ne (by decide))
    | cons d x' =>
      have hx' : x' ++ u = E.data := by
        injection hx with _ h2
      exact matchEvalAt_none (ciLit_none_of_hasCiSub_false hsub u x' hx')
  have hfind : evalFindAll (strOf (evalStage F E).data).data = [F.data] := by
    rw [strOf_data, hdata]
    unfold evalFindAll
    rw [findAllFuel_step (matchEvalAt_first hF hFw)]
    rw [findAllFuel_none_all _ _ hscan]
  have hex : extract_fields_from_eval (strOf (evalStage F E).data) = [F] := by
    unfold extract_fields_from_eval
    rw [hfind]
    simp [pyTrim_word hFw, strOf_data]
  rw [hex]
  show (⟨[], addSet [] F, []⟩ : FieldsUsage) = ⟨[], [F], []⟩
  rw [show addSet [] F = [F] from rfl]

def witEvF : String := "a"
def witEvE : String := "1, b = 2"

/-- Witness for the amended eval claim at a concrete two-assignment
stage: only the first field is created. -/
theorem eval_first_assignment_only_witness :
    witEvF.data ≠ [] ∧ witEvF.data.all isW = true ∧ witEvE.data ≠ [] ∧
      witEvE.data.reverse.dropWhile isSp = witEvE.data.reverse ∧
      hasCiSub litEval witEvE.data = false ∧ ¬ '|' ∈ witEvE.data ∧
      parse_search_query (evalStage witEvF witEvE) = ⟨[], [witEvF], []⟩ :=
  ⟨by decide, by decide, by decide, by decide, by decide, by decide,
    eval_first_assignment_only witEvF witEvE (by decide) (by decide) (by decide)
      (by decide) (by decide) (by decide)⟩

theorem splitComma_no {t : List Char} (h : ¬ ',' ∈ t) : splitComma t = [t] := by
  induction t with
  | nil => rfl
  | cons c t ih =>
    have hc : c ≠ ',' := fun he => h (he ▸ List.mem_cons_self _ _)
    have ht : ¬ ',' ∈ t := fun hm => h (List.mem_cons_of_mem _ hm)
    simp only [splitComma, if_neg hc, ih ht]

theorem splitComma_pair {x y : List Char} (hx : ¬ ',' ∈ x) (hy : ¬ ',' ∈ y) :
    splitComma (x ++ ',' :: y) = [x, y] := by
  induction x with
  | nil =>
    show splitComma (',' :: y) = [[], y]
    simp [splitComma, splitComma_no hy]
  | cons c x' ih =>
    have hc : c ≠ ',' := fun he => hx (he ▸ List.mem_cons_self _ _)
    have hx' : ¬ ',' ∈ x' := fun hm => hx (List.mem_cons_of_mem _ hm)
    rw [List.cons_append]
    simp only [splitComma, if_neg hc, ih hx']

theorem pyTrim_cons_sp {c : Char} {t : List Char} (h : isSp c = true) :
    pyTrimL (c :: t) = pyTrimL t := by
  unfold pyTrimL
  rw [List.dropWhile_cons, if_pos h]

theorem not_comma_of_word {t : List Char} (h : t.all isW = true) : ¬ ',' ∈ t :=
  not_mem_of_all_isW h (by decide)

theorem matchLookupAt_schematic {T a b p q : List Char}
    (hT : T ≠ []) (hTw : T.all isW = true)
    (ha : a ≠ []) (haw : a.all isW = true)
    (hb : b ≠ []) (hbw : b.all isW = true)
    (hp : p ≠ []) (hpw : p.all isW = true)
    (hq : q ≠ []) (hqw : q.all isW = true)
    (hout : ciPre litOutput b = false) :
    matchLookupAt (litLookup ++ ' ' ::
        (T ++ ' ' :: (a ++ ',' :: ' ' :: (b ++ ' ' ::
          ('O' :: 'U' :: 'T' :: 'P' :: 'U' :: 'T' :: ' ' :: (p ++ ',' :: ' ' :: q)))))) =
      some ((T, (a ++ ',' :: ' ' :: b), (p ++ ',' :: ' ' :: q)), []) := by
  have hG3nl : ∀ ch ∈ p ++ ',' :: ' ' :: q, ch ≠ '\n' := by
    intro ch hch
    rcases List.mem_append.mp hch with h | h
    · exact isW_ne (mem_all_isW hpw h) (by decide)
    · rcases List.mem_cons.mp h with rfl | h
      · decide
      · rcases List.mem_cons.mp h with rfl | h
        · decide
        · exact isW_ne (mem_all_isW hqw h) (by decide)
  obtain ⟨tc, T', rfl⟩ : ∃ x y, T = x :: y := by
    cases T with
    | nil => exact absurd rfl hT
    | cons x y => exact ⟨x, y, rfl⟩
  obtain ⟨ac, a', rfl⟩ : ∃ x y, a = x :: y := by
    cases a with
    | nil => exact absurd rfl ha
    | cons x y => exact ⟨x, y, rfl⟩
  obtain ⟨pc, p', rfl⟩ : ∃ x y, p = x :: y := by
    cases p with
    | nil => exact absurd rfl hp
    | cons x y => exact ⟨x, y, rfl⟩
  have htcW : isW tc = true := mem_all_isW hTw (List.mem_cons_self _ _)
  have hacW : isW ac = true := mem_all_isW haw (List.mem_cons_self _ _)
  have hpcW : isW pc = true := mem_all_isW hpw (List.mem_cons_self _ _)
  have houtfail : ∀ rest : List Char,
      ciLit litOutput (b ++ ' ' :: rest) = none := fun rest =>
    ciLit_append_space_none litOutput (by decide) b rest hout
  unfold matchLookupAt
  rw [ciLit_refl litLookup _]
  show wsPlusFirst (' ' :: ((tc :: T') ++ ' ' :: ((ac :: a') ++ ',' :: ' ' :: (b ++ ' ' ::
      ('O' :: 'U' :: 'T' :: 'P' :: 'U' :: 'T' :: ' ' :: ((pc :: p') ++ ',' :: ' ' :: q)))))) _ =
    some (((tc :: T'), ((ac :: a') ++ ',' :: ' ' :: b), ((pc :: p') ++ ',' :: ' ' :: q)), [])
  rw [List.cons_append, wsPlusFirst_one (isW_not_sp htcW)]
  show lazyDotFirst (tc :: (T' ++ ' ' :: ((ac :: a') ++ ',' :: ' ' :: (b ++ ' ' ::
      ('O' :: 'U' :: 'T' :: 'P' :: 'U' :: 'T' :: ' ' :: ((pc :: p') ++ ',' :: ' ' :: q)))))) _ =
    some (((tc :: T'), ((ac :: a') ++ ',' :: ' ' :: b), ((pc :: p') ++ ',' :: ' ' :: q)), [])
  rw [← List.cons_append]
  apply lazyDotFirst_skip_hit
  · intro ch hch
    exact isW_ne (mem_all_isW hTw hch) (by decide)
  · intro i hi
    obtain ⟨ch, w, hd, hcW⟩ := drop_word_head hTw hi
    rw [hd, List.cons_append]
    exact wsPlusFirst_none (takeWhile_nil_of_head (isW_not_sp hcW))
  · show wsPlusFirst (' ' :: ((ac :: a') ++ ',' :: ' ' :: (b ++ ' ' ::
        ('O' :: 'U' :: 'T' :: 'P' :: 'U' :: 'T' :: ' ' :: ((pc :: p') ++ ',' :: ' ' :: q))))) _ =
      some (((tc :: T'), ((ac :: a') ++ ',' :: ' ' :: b), ((pc :: p') ++ ',' :: ' ' :: q)), [])
    rw [List.cons_append, wsPlusFirst_one (isW_not_sp hacW)]
    show lazyDotFirst (ac :: (a' ++ ',' :: ' ' :: (b ++ ' ' ::
        ('O' :: 'U' :: 'T' :: 'P' :: 'U' :: 'T' :: ' ' :: ((pc :: p') ++ ',' :: ' ' :: q))))) _ =
      some (((tc :: T'), ((ac :: a') ++ ',' :: ' ' :: b), ((pc :: p') ++ ',' :: ' ' :: q)), [])
    rw [← List.cons_append]
    unfold lazyDotFirst
    rw [lazyDotGo_skip _ (ac :: a') []
      (',' :: ' ' :: (b ++ ' ' ::
        ('O' :: 'U' :: 'T' :: 'P' :: 'U' :: 'T' :: ' ' :: ((pc :: p') ++ ',' :: ' ' :: q))))
      (by intro ch hch; exact isW_ne (mem_all_isW haw hch) (by decide))
      (by
        intro i hi
        obtain ⟨ch, w, hd, hcW⟩ := drop_word_head haw hi
        rw [hd, List.cons_append]
        exact wsPlusFirst_none (takeWhile_nil_of_head (isW_not_sp hcW)))]
    show lazyDotGo _ _ ([','] ++ (' ' :: (b ++ ' ' ::
        ('O' :: 'U' :: 'T' :: 'P' :: 'U' :: 'T' :: ' ' :: ((pc :: p') ++ ',' :: ' ' :: q))))) = _
    rw [lazyDotGo_skip _ [','] ((ac :: a').reverse ++ [])
      (' ' :: (b ++ ' ' ::
        ('O' :: 'U' :: 'T' :: 'P' :: 'U' :: 'T' :: ' ' :: ((pc :: p') ++ ',' :: ' ' :: q))))
      (by intro ch hch; rcases List.mem_singleton.mp hch with rfl; decide)
      (by
        intro i hi
        simp only [List.length_cons, List.length_nil] at hi
        have hi0 : i = 0 := by omega
        subst hi0
        show wsPlusFirst (',' :: (' ' :: (b ++ ' ' ::
          ('O' :: 'U' :: 'T' :: 'P' :: 'U' :: 'T' :: ' ' :: ((pc :: p') ++ ',' :: ' ' :: q))))) _ = none
        exact wsPlusFirst_none (takeWhile_nil_of_head (by decide)))]
    show lazyDotGo _ _ ([' '] ++ (b ++ ' ' ::
        ('O' :: 'U' :: 'T' :: 'P' :: 'U' :: 'T' :: ' ' :: ((pc :: p') ++ ',' :: ' ' :: q)))) = _
    rw [lazyDotGo_skip _ [' '] ([','].reverse ++ ((ac :: a').reverse ++ []))
      (b ++ ' ' :: ('O' :: 'U' :: 'T' :: 'P' :: 'U' :: 'T' :: ' ' :: ((pc :: p') ++ ',' :: ' ' :: q)))
      (by intro ch hch; rcases List.mem_singleton.mp hch with rfl; decide)
      (by
        intro i hi
        simp only [List.length_cons, List.length_nil] at hi
        have hi0 : i = 0 := by omega
        subst hi0
        show wsPlusFirst (' ' :: (b ++ ' ' ::
          ('O' :: 'U' :: 'T' :: 'P' :: 'U' :: 'T' :: ' ' :: ((pc :: p') ++ ',' :: ' ' :: q)))) _ = none
        obtain ⟨bc, b', rfl⟩ : ∃ x y, b = x :: y := by
          cases b with
          | nil => exact absurd rfl hb
          | cons x y => exact ⟨x, y, rfl⟩
        have hbcW : isW bc = true := mem_all_isW hbw (List.mem_cons_self _ _)
        rw [List.cons_append, wsPlusFirst_one (isW_not_sp hbcW)]
        rw [show (bc :: (b' ++ ' ' ::
            ('O' :: 'U' :: 'T' :: 'P' :: 'U' :: 'T' :: ' ' :: ((pc :: p') ++ ',' :: ' ' :: q)))) =
          ((bc :: b') ++ ' ' ::
            ('O' :: 'U' :: 'T' :: 'P' :: 'U' :: 'T' :: ' ' :: ((pc :: p') ++ ',' :: ' ' :: q))) from rfl]
        rw [houtfail])]
    rw [lazyDotGo_skip _ b ([' '].reverse ++ ([','].reverse ++ ((ac :: a').reverse ++ [])))
      (' ' :: ('O' :: 'U' :: 'T' :: 'P' :: 'U' :: 'T' :: ' ' :: ((pc :: p') ++ ',' :: ' ' :: q)))
      (by intro ch hch; exact isW_ne (mem_all_isW hbw hch) (by decide))
      (by
        intro i hi
        obtain ⟨ch, w, hd, hcW⟩ := drop_word_head hbw hi
        rw [hd, List.cons_append]
        exact wsPlusFirst_none (takeWhile_nil_of_head (isW_not_sp hcW)))]
    apply lazyDotGo_hit
    have hrev : (b.reverse ++ ([' '].reverse ++ ([','].reverse ++ ((ac :: a').reverse ++ [])))).reverse =
        (ac :: a') ++ ',' :: ' ' :: b := by
      simp
    rw [hrev]
    show wsPlusFirst (' ' :: ('O' :: 'U' :: 'T' :: 'P' :: 'U' :: 'T' :: ' ' ::
        ((pc :: p') ++ ',' :: ' ' :: q))) _ =
      some (((tc :: T'), ((ac :: a') ++ ',' :: ' ' :: b), ((pc :: p') ++ ',' :: ' ' :: q)), [])
    rw [wsPlusFirst_one (by decide : isSp 'O' = false)]
    have hOUT : ciLit litOutput ('O' :: 'U' :: 'T' :: 'P' :: 'U' :: 'T' ::
        (' ' :: ((pc :: p') ++ ',' :: ' ' :: q))) = some (' ' :: ((pc :: p') ++ ',' :: ' ' :: q)) :=
      ciLit_refl litOutput _
    rw [hOUT]
    show optNewFirst (' ' :: ((pc :: p') ++ ',' :: ' ' :: q)) _ =
      some (((tc :: T'), ((ac :: a') ++ ',' :: ' ' :: b), ((pc :: p') ++ ',' :: ' ' :: q)), [])
    have hNEW : ciLit litNew (' ' :: ((pc :: p') ++ ',' :: ' ' :: q)) = none :=
      ciLit_head_ne (by decide)
    unfold optNewFirst
    rw [hNEW]
    show wsPlusFirst (' ' :: ((pc :: p') ++ ',' :: ' ' :: q)) _ =
      some (((tc :: T'), ((ac :: a') ++ ',' :: ' ' :: b), ((pc :: p') ++ ',' :: ' ' :: q)), [])
    rw [List.cons_append, wsPlusFirst_one (isW_not_sp hpcW)]
    show greedyDotFirst (pc :: (p' ++ ',' :: ' ' :: q)) _ =
      some (((tc :: T'), ((ac :: a') ++ ',' :: ' ' :: b), ((pc :: p') ++ ',' :: ' ' :: q)), [])
    rw [← List.cons_append]
    exact greedyDotFirst_full hG3nl rfl

def lookupStage (T i1 i2 o1 o2 : String) : String :=
  "lookup " ++ T ++ " " ++ i1 ++ ", " ++ i2 ++ " OUTPUT " ++ o1 ++ ", " ++ o2

theorem lookupStage_data (T i1 i2 o1 o2 : String) :
    (lookupStage T i1 i2 o1 o2).data =
      litLookup ++ ' ' :: (T.data ++ ' ' :: (i1.data ++ ',' :: ' ' :: (i2.data ++ ' ' ::
        ('O' :: 'U' :: 'T' :: 'P' :: 'U' :: 'T' :: ' ' ::
          (o1.data ++ ',' :: ' ' :: o2.data))))) := by
  show ("lookup " ++ T ++ " " ++ i1 ++ ", " ++ i2 ++ " OUTPUT " ++ o1 ++ ", " ++ o2).data = _
  simp only [String.data_append]
  show ('l' :: 'o' :: 'o' :: 'k' :: 'u' :: 'p' :: ' ' :: []) ++ T.data ++ (' ' :: []) ++
      i1.data ++ (',' :: ' ' :: []) ++ i2.data ++
      (' ' :: 'O' :: 'U' :: 'T' :: 'P' :: 'U' :: 'T' :: ' ' :: []) ++ o1.data ++
      (',' :: ' ' :: []) ++ o2.data =
    ('l' :: 'o' :: 'o' :: 'k' :: 'u' :: 'p' :: []) ++ ' ' :: (T.data ++ ' ' ::
      (i1.data ++ ',' :: ' ' :: (i2.data ++ ' ' ::
        ('O' :: 'U' :: 'T' :: 'P' :: 'U' :: 'T' :: ' ' ::
          (o1.data ++ ',' :: ' ' :: o2.data)))))
  simp [List.append_assoc]

/-- C3 amended: for the stage `lookup T in1, in2 OUTPUT out1, out2`
(word-only names, `in2` not starting with `output` case-insensitively)
the code files every input AND output field under `used`: `used` is
exactly `{in1, in2, out1, out2}` while `created` and `renamed` stay
empty.  The spec's `OUT* → created` classification does not hold. -/
theorem lookup_inputs_outputs_all_used (T i1 i2 o1 o2 : String)
    (hT : T.data ≠ []) (hTw : T.data.all isW = true)
    (h1 : i1.data ≠ []) (h1w : i1.data.all isW = true)
    (h2 : i2.data ≠ []) (h2w : i2.data.all isW = true)
    (h3 : o1.data ≠ []) (h3w : o1.data.all isW = true)
    (h4 : o2.data ≠ []) (h4w : o2.data.all isW = true)
    (hout : ciPre litOutput i2.data = false) :
    (parse_search_query (lookupStage T i1 i2 o1 o2)).created = [] ∧
      (parse_search_query (lookupStage T i1 i2 o1 o2)).renamed = [] ∧
      ∀ x, x ∈ (parse_search_query (lookupStage T i1 i2 o1 o2)).used ↔
        (x = i1 ∨ x = i2 ∨ x = o1 ∨ x = o2) := by
  have hdata := lookupStage_data T i1 i2 o1 o2
  have hqpipe : ¬ '|' ∈ (lookupStage T i1 i2 o1 o2).data := by
    rw [hdata]
    intro hm
    rcases List.mem_append.mp hm with hm | hm
    · exact absurd hm (by decide)
    · rcases List.mem_cons.mp hm with hm | hm
      · exact absurd hm (by decide)
      · rcases List.mem_append.mp hm with hm | hm
        · exact not_mem_of_all_isW hTw (by decide) hm
        · rcases List.mem_cons.mp hm with hm | hm
          · exact absurd hm (by decide)
          · rcases List.mem_append.mp hm with hm | hm
            · exact not_mem_of_all_isW h1w (by decide) hm
            · rcases List.mem_cons.mp hm with hm | hm
              · exact absurd hm (by decide)
              · rcases List.mem_cons.mp hm with hm | hm
                · exact absurd hm (by decide)
                · rcases List.mem_append.mp hm with hm | hm
                  · exact not_mem_of_all_isW h2w (by decide) hm
                  · rcases List.mem_cons.mp hm with hm | hm
                    · exact absurd hm (by decide)
                    · rcases List.mem_cons.mp hm with hm | hm
                      · exact absurd hm (by decide)
                      · rcases List.mem_cons.mp hm with hm | hm
                        · exact absurd hm (by decide)
                        · rcases List.mem_cons.mp hm with hm | hm
                          · exact absurd hm (by decide)
                          · rcases List.mem_cons.mp hm with hm | hm
                            · exact absurd hm (by decide)
                            · rcases List.mem_cons.mp hm with hm | hm
                              · exact absurd hm (by decide)
                              · rcases List.mem_cons.mp hm with hm | hm
                                · exact absurd hm (by decide)
                                · rcases List.mem_cons.mp hm with hm | hm
                                  · exact absurd hm (by decide)
                                  · rcases List.mem_append.mp hm with hm | hm
                                    · exact not_mem_of_all_isW h3w (by decide) hm
                                    · rcases List.mem_cons.mp hm with hm | hm
                                      · exact absurd hm (by decide)
                                      · rcases List.mem_cons.mp hm with hm | hm
                                        · exact absurd hm (by decide)
                                        · exact not_mem_of_all_isW h4w (by decide) hm
  have htrim : pyTrimL (lookupStage T i1 i2 o1 o2).data = (lookupStage T i1 i2 o1 o2).data := by
    rw [hdata]
    have hshape : litLookup ++ ' ' :: (T.data ++ ' ' :: (i1.data ++ ',' :: ' ' ::
        (i2.data ++ ' ' :: ('O' :: 'U' :: 'T' :: 'P' :: 'U' :: 'T' :: ' ' ::
          (o1.data ++ ',' :: ' ' :: o2.data))))) =
        'l' :: (('o' :: 'o' :: 'k' :: 'u' :: 'p' :: ' ' :: T.data ++ ' ' :: i1.data ++
          ',' :: ' ' :: i2.data ++ ' ' :: 'O' :: 'U' :: 'T' :: 'P' :: 'U' :: 'T' :: ' ' ::
          o1.data ++ ',' :: ' ' :: []) ++ o2.data) := by
      show ('l' :: "ookup".data) ++ _ = _
      simp [List.append_assoc]
    rw [hshape, pyTrim_concat (by decide) h4 h4w]
  have hne : pyTrimL (lookupStage T i1 i2 o1 o2).data ≠ [] := by
    rw [htrim, hdata]
    simp [litLookup]
  have hverb : (lookupStage T i1 i2 o1 o2).data.takeWhile isW = litLookup := by
    rw [hdata]
    rw [takeWhile_append_all (by decide)]
    rw [takeWhile_nil_of_head (by decide : isW ' ' = false), List.append_nil]
  have hstep := parse_single_stage hqpipe hne
  rw [htrim] at hstep
  rw [hstep]
  rw [stageStep_lookup (by rw [hverb]; decide) (by
    unfold verbOf
    rw [hverb]
    rfl)]
  have hfind : lookupFindAll (strOf (lookupStage T i1 i2 o1 o2).data).data =
      [(T.data, i1.data ++ ',' :: ' ' :: i2.data, o1.data ++ ',' :: ' ' :: o2.data)] := by
    rw [strOf_data, hdata]
    unfold lookupFindAll
    rw [findAllFuel_step (matchLookupAt_schematic hT hTw h1 h1w h2 h2w h3 h3w h4 h4w hout)]
    rw [findAllFuel_nil rfl]
  have hcomma1 : ¬ ',' ∈ i1.data := not_comma_of_word h1w
  have hcomma2 : ¬ ',' ∈ (' ' :: i2.data) := by
    intro hm
    rcases List.mem_cons.mp hm with hm | hm
    · exact absurd hm (by decide)
    · exact not_comma_of_word h2w hm
  have hcomma3 : ¬ ',' ∈ o1.data := not_comma_of_word h3w
  have hcomma4 : ¬ ',' ∈ (' ' :: o2.data) := by
    intro hm
    rcases List.mem_cons.mp hm with hm | hm
    · exact absurd hm (by decide)
    · exact not_comma_of_word h4w hm
  have hex : extract_fields_from_lookup (strOf (lookupStage T i1 i2 o1 o2).data) =
      [i1, i2, o1, o2] := by
    unfold extract_fields_from_lookup
    rw [hfind]
    show ((splitComma (i1.data ++ ',' :: ' ' :: i2.data)).map (fun p => strOf (pyTrimL p))) ++
        ((splitComma (o1.data ++ ',' :: ' ' :: o2.data)).map (fun p => strOf (pyTrimL p))) ++ [] =
      [i1, i2, o1, o2]
    rw [splitComma_pair hcomma1 hcomma2, splitComma_pair hcomma3 hcomma4]
    simp only [List.map_cons, List.map_nil]
    rw [pyTrim_word h1w, pyTrim_cons_sp (by decide), pyTrim_word h2w,
      pyTrim_word h3w, pyTrim_cons_sp (by decide), pyTrim_word h4w]
    simp [strOf_data]
  rw [hex]
  refine ⟨rfl, rfl, ?_⟩
  intro x
  show x ∈ ([i1, i2, o1, o2].foldl addSet []) ↔ _
  rw [mem_foldl_addSet]
  simp [List.mem_cons]

def witLkT : String := "geo"
def witLkI1 : String := "src"
def witLkI2 : String := "dst"
def witLkO1 : String := "city"
def witLkO2 : String := "country"

/-- Witness for the amended lookup claim at concrete names: the output
field lands in `used`. -/
theorem lookup_inputs_outputs_all_used_witness :
    witLkT.data ≠ [] ∧ witLkT.data.all isW = true ∧
      witLkI2.data ≠ [] ∧ witLkI2.data.all isW = true ∧
      ciPre litOutput witLkI2.data = false ∧
      witLkO1 ∈ (parse_search_query
        (lookupStage witLkT witLkI1 witLkI2 witLkO1 witLkO2)).used ∧
      (parse_search_query
        (lookupStage witLkT witLkI1 witLkI2 witLkO1 witLkO2)).created = [] :=
  ⟨by decide, by decide, by decide, by decide, by decide,
    ((lookup_inputs_outputs_all_used witLkT witLkI1 witLkI2 witLkO1 witLkO2
      (by decide) (by decide) (by decide) (by decide) (by decide) (by decide)
      (by decide) (by decide) (by decide) (by decide) (by decide)).2.2 witLkO1).mpr
      (Or.inr (Or.inr (Or.inl rfl))),
    (lookup_inputs_outputs_all_used witLkT witLkI1 witLkI2 witLkO1 witLkO2
      (by decide) (by decide) (by decide) (by decide) (by decide) (by decide)
      (by decide) (by decide) (by decide) (by decide) (by decide)).1⟩

/-- C8 amended: the generic fallback extraction (word tokens before
`=`, otherwise every bare word token, all into `used`) is applied
exactly for the six verbs `search`, `where`, `table`, `fields`,
`fillnull`, `coalesce`; a single-stage query with any other
unrecognized verb contributes nothing at all. -/
theorem fallback_six_verbs_only (q : String) (hp : ¬ '|' ∈ q.data) :
    (verbOf (pyTrimL q.data) ∈ fallbackVerbs →
      parse_search_query q =
        ⟨[], [], (fallbackFields (pyTrimL q.data)).foldl
          (fun s f => addSet s (strOf f)) []⟩) ∧
    (¬ verbOf (pyTrimL q.data) ∈ ([vRename, vEval, vStats, vLookup] ++ fallbackVerbs) →
      parse_search_query q = ⟨[], [], []⟩) := by
  by_cases hte : pyTrimL q.data = []
  · constructor
    · intro hv
      rw [hte] at hv
      exact absurd hv (by decide)
    · intro _
      unfold parse_search_query
      rw [commandsOf_single_empty hp hte]
      rfl
  · have hstep := parse_single_stage hp hte
    constructor
    · intro hv
      have h2 : fallbackVerbs.contains (verbOf (pyTrimL q.data)) = true := by
        show List.elem _ _ = true
        exact List.elem_iff.mpr hv
      have h3 : verbOf (pyTrimL q.data) ≠ vRename := by
        intro he
        rw [he] at hv
        exact absurd hv (by decide)
      have h4 : verbOf (pyTrimL q.data) ≠ vEval := by
        intro he
        rw [he] at hv
        exact absurd hv (by decide)
      have h5 : verbOf (pyTrimL q.data) ≠ vStats := by
        intro he
        rw [he] at hv
        exact absurd hv (by decide)
      have h6 : verbOf (pyTrimL q.data) ≠ vLookup := by
        intro he
        rw [he] at hv
        exact absurd hv (by decide)
      have h1 : (pyTrimL q.data).takeWhile isW ≠ [] := by
        intro h0
        have hvb : verbOf (pyTrimL q.data) = strOf [] := by
          unfold verbOf
          rw [h0]
          rfl
        rw [hvb] at hv
        exact absurd hv (by decide)
      rw [hstep, stageStep_fallback h1 h2 h3 h4 h5 h6]
    · intro hv
      have h3 : verbOf (pyTrimL q.data) ≠ vRename := by
        intro he
        exact hv (by rw [he]; decide)
      have h4 : verbOf (pyTrimL q.data) ≠ vEval := by
        intro he
        exact hv (by rw [he]; decide)
      have h5 : verbOf (pyTrimL q.data) ≠ vStats := by
        intro he
        exact hv (by rw [he]; decide)
      have h6 : verbOf (pyTrimL q.data) ≠ vLookup := by
        intro he
        exact hv (by rw [he]; decide)
      have h2 : fallbackVerbs.contains (verbOf (pyTrimL q.data)) = false := by
        cases hc : fallbackVerbs.contains (verbOf (pyTrimL q.data)) with
        | false => rfl
        | true =>
          exfalso
          have hmem : verbOf (pyTrimL q.data) ∈ fallbackVerbs := List.elem_iff.mp hc
          exact hv (List.mem_append.mpr (Or.inr hmem))
      rw [hstep, stageStep_skip h2 h3 h4 h5 h6]

def witFbQ : String := "where count > 100"
def witSkipQ : String := "sort foo"

/-- Witness for the fallback-dispatch claim at a six-verb stage and at
an unrecognized-verb stage. -/
theorem fallback_six_verbs_only_witness :
    (¬ '|' ∈ witFbQ.data) ∧ verbOf (pyTrimL witFbQ.data) ∈ fallbackVerbs ∧
      parse_search_query witFbQ =
        ⟨[], [], (fallbackFields (pyTrimL witFbQ.data)).foldl
          (fun s f => addSet s (strOf f)) []⟩ ∧
      (¬ '|' ∈ witSkipQ.data) ∧
      (¬ verbOf (pyTrimL witSkipQ.data) ∈
        ([vRename, vEval, vStats, vLookup] ++ fallbackVerbs)) ∧
      parse_search_query witSkipQ = ⟨[], [], []⟩ :=
  ⟨by decide, by decide,
    (fallback_six_verbs_only witFbQ (by decide)).1 (by decide),
    by decide, by decide,
    (fallback_six_verbs_only witSkipQ (by decide)).2 (by decide)⟩

def emptyQuery : String := ""

/-- C9: the analysis is total by construction (every embedded function
is a total Lean function mirroring code that cannot raise); an
extractor whose pattern finds no match in a stage contributes the empty
list, and the empty query degrades to the empty usage record and the
empty violation list. -/
theorem extractors_never_fail :
    (∀ cmd : String, renameFindAll cmd.data = [] → extract_fields_from_rename cmd = []) ∧
    (∀ cmd : String, evalFindAll cmd.data = [] → extract_fields_from_eval cmd = []) ∧
    (∀ cmd : String, statsFindAll cmd.data = [] → extract_fields_from_stats cmd = []) ∧
    (∀ cmd : String, lookupFindAll cmd.data = [] → extract_fields_from_lookup cmd = []) ∧
    parse_search_query emptyQuery = ⟨[], [], []⟩ ∧
    (∀ n : String, check_cim_compliance n emptyQuery = []) := by
  refine ⟨?_, ?_, ?_, ?_, by decide, fun n => rfl⟩
  · intro cmd h
    unfold extract_fields_from_rename
    rw [h]
    rfl
  · intro cmd h
    unfold extract_fields_from_eval
    rw [h]
    rfl
  · intro cmd h
    unfold extract_fields_from_stats
    rw [h]
    rfl
  · intro cmd h
    unfold extract_fields_from_lookup
    rw [h]
    rfl

def noMatchRename : String := "rename"
def noMatchEval : String := "eval"
def noMatchStats : String := "stats"
def noMatchLookup : String := "lookup"

/-- Witness for the no-match behaviour of all four extractors at
concrete stages whose pattern cannot match. -/
theorem extractors_never_fail_witness :
    (renameFindAll noMatchRename.data = [] ∧ extract_fields_from_rename noMatchRename = []) ∧
    (evalFindAll noMatchEval.data = [] ∧ extract_fields_from_eval noMatchEval = []) ∧
    (statsFindAll noMatchStats.data = [] ∧ extract_fields_from_stats noMatchStats = []) ∧
    (lookupFindAll noMatchLookup.data = [] ∧ extract_fields_from_lookup noMatchLookup = []) :=
  ⟨⟨by decide, extractors_never_fail.1 noMatchRename (by decide)⟩,
    ⟨by decide, extractors_never_fail.2.1 noMatchEval (by decide)⟩,
    ⟨by decide, extractors_never_fail.2.2.1 noMatchStats (by decide)⟩,
    ⟨by decide, extractors_never_fail.2.2.2.1 noMatchLookup (by decide)⟩⟩
